import Mathlib

/-!
Verification of the AWS VPC route tracker (src/ipam/tracker/awsvpc.go).

The tracker keeps two routing tables (the AWS VPC table and the host kernel
table) synchronized with a set of owned address ranges.  `removeCommon` is
the two-pointer diff over sorted CIDR lists, `HandleUpdate` the two-phase
synchronizer (additions before removals, abort on first failure), and
`parseCIDR` the string-to-network parser used on the host-table path.

The repository's `net/address` package (the `CIDR` type with its `Equal`,
`End` and `String` methods, and `NewCIDRs`) is not part of the staged
sources; those definitions are modelled from the spec as noted on each.
-/

namespace Weave

/-- Modelled from the spec: an Address Range (CIDR) is an IP network given as
(base address, prefix length); start and end addresses are derived from it.
The `net/address` package defining the source's `address.CIDR` is not under
`src/`.  Addresses are 32-bit values carried as `Nat`. -/
structure CIDR where
  addr : Nat
  prefixLen : Nat
deriving DecidableEq, Repr

/-- Modelled from the spec: the number of addresses a CIDR covers. -/
def CIDR.size (c : CIDR) : Nat := 2 ^ (32 - c.prefixLen)

/-- Modelled from the spec: the (exclusive) end address of a range, the key
of the total order driving the merge-style diff.  `net/address` is not under
`src/`; the spec treats start and end as plain derived addresses. -/
def CIDR.End (c : CIDR) : Nat := c.addr + c.size

/-- A CIDR whose components are in range: a 32-bit base address and a prefix
length of at most 32 bits. -/
def CIDR.Valid (c : CIDR) : Prop := c.addr < 2 ^ 32 ∧ c.prefixLen ≤ 32

instance (c : CIDR) : Decidable c.Valid := by
  unfold CIDR.Valid; infer_instance

/-- The spec's input invariant on a range set: sorted by increasing end
address and non-overlapping (each range ends at or before the next begins). -/
def SortedRanges (l : List CIDR) : Prop :=
  l.Pairwise (fun x y => x.End ≤ y.addr)

instance (l : List CIDR) : Decidable (SortedRanges l) := by
  unfold SortedRanges; infer_instance

/-- Strict increase of end addresses along a list. -/
def EndSorted (l : List CIDR) : Prop :=
  l.Pairwise (fun x y => x.End < y.End)

theorem CIDR.addr_lt_End (c : CIDR) : c.addr < c.End := by
  have : 0 < c.size := Nat.pos_pow_of_pos _ (by norm_num)
  simp [CIDR.End]; omega

theorem sortedRanges_endSorted {l : List CIDR} (h : SortedRanges l) :
    EndSorted l :=
  h.imp (fun {x y} hxy => lt_of_le_of_lt hxy y.addr_lt_End)

/-- `removeCommon` from src/ipam/tracker/awsvpc.go: the two-pointer merge
that drops the ranges present in both sorted lists and returns the ranges
only in `a` and only in `b`.  The source's `a[i].Equal(b[j])` compares the
base address and the prefix length, i.e. structural equality of `CIDR`. -/
def removeCommon : List CIDR → List CIDR → List CIDR × List CIDR
  | [], b => ([], b)
  | a, [] => (a, [])
  | x :: a, y :: b =>
    if x = y then
      removeCommon a b
    else if x.End < y.End then
      let r := removeCommon a (y :: b)
      (x :: r.1, r.2)
    else
      let r := removeCommon (x :: a) b
      (r.1, y :: r.2)
termination_by a b => a.length + b.length

/-- The sorted-list set difference `removeCommon` computes: the elements of
`A` not present in `B`, in order. -/
def diffL (A B : List CIDR) : List CIDR :=
  A.filter (fun x => decide (x ∉ B))

theorem diffL_nil_left (B : List CIDR) : diffL [] B = [] := rfl

theorem diffL_nil_right (A : List CIDR) : diffL A [] = A := by
  simp [diffL]

/-- Master characterization of the merge: on lists whose end addresses
strictly increase, `removeCommon` returns exactly the two set differences. -/
theorem removeCommon_eq_diffL :
    ∀ (A B : List CIDR), EndSorted A → EndSorted B →
      removeCommon A B = (diffL A B, diffL B A)
  | [], b, _, _ => by simp [removeCommon, diffL]
  | x :: a, [], _, _ => by simp [removeCommon, diffL]
  | x :: a, y :: b, hA, hB => by
    have hAa : EndSorted a := hA.tail
    have hBb : EndSorted b := hB.tail
    have hAx : ∀ z ∈ a, x.End < z.End := (List.pairwise_cons.1 hA).1
    have hBy : ∀ z ∈ b, y.End < z.End := (List.pairwise_cons.1 hB).1
    by_cases hxy : x = y
    · subst hxy
      have ih := removeCommon_eq_diffL a b hAa hBb
      have h1 : diffL (x :: a) (x :: b) = diffL a b := by
        simp only [diffL, List.filter_cons]
        have hx : (decide (x ∉ x :: b)) = false := by simp
        rw [hx]
        exact List.filter_congr (fun z hz => by
          have : z ≠ x := fun h => absurd (h ▸ hAx z hz) (lt_irrefl _)
          simp [this])
      have h2 : diffL (x :: b) (x :: a) = diffL b a := by
        simp only [diffL, List.filter_cons]
        have hx : (decide (x ∉ x :: a)) = false := by simp
        rw [hx]
        exact List.filter_congr (fun z hz => by
          have : z ≠ x := fun h => absurd (h ▸ hBy z hz) (lt_irrefl _)
          simp [this])
      rw [removeCommon, if_pos rfl, ih, h1, h2]
    · by_cases hlt : x.End < y.End
      · have ih := removeCommon_eq_diffL a (y :: b) hAa hB
        have hxB : x ∉ y :: b := by
          intro hmem
          rcases List.mem_cons.1 hmem with h | h
          · exact hxy h
          · exact absurd (hBy x h) (by omega)
        have h1 : diffL (x :: a) (y :: b) = x :: diffL a (y :: b) := by
          simp only [diffL, List.filter_cons]
          rw [decide_eq_true hxB]
          simp
        have h2 : diffL (y :: b) (x :: a) = diffL (y :: b) a := by
          refine List.filter_congr (fun z hz => ?_)
          have hzx : z ≠ x := by
            rcases List.mem_cons.1 hz with h | h
            · exact fun hzx => hxy (by rw [← hzx, h])
            · exact fun hzx => absurd (hBy z h) (by rw [hzx]; omega)
          simp [hzx]
        rw [removeCommon, if_neg hxy, if_pos hlt, ih, h1, h2]
      · have ih := removeCommon_eq_diffL (x :: a) b hA hBb
        have hyA : y ∉ x :: a := by
          intro hmem
          rcases List.mem_cons.1 hmem with h | h
          · exact hxy h.symm
          · exact absurd (hAx y h) (by omega)
        have h2 : diffL (y :: b) (x :: a) = y :: diffL b (x :: a) := by
          simp only [diffL, List.filter_cons]
          rw [decide_eq_true hyA]
          simp
        have h1 : diffL (x :: a) (y :: b) = diffL (x :: a) b := by
          refine List.filter_congr (fun z hz => ?_)
          have hzy : z ≠ y := by
            rcases List.mem_cons.1 hz with h | h
            · exact fun hzy => hxy (h ▸ hzy)
            · exact fun hzy => absurd (hAx z h) (by rw [hzy]; omega)
          simp [hzy]
        rw [removeCommon, if_neg hxy, if_neg hlt, ih, h1, h2]
termination_by A B => A.length + B.length

/-! ## Range strings and the parser

`parseCIDR` (src/ipam/tracker/awsvpc.go) wraps Go's `net.ParseCIDR` and then
overwrites the network's IP with the address exactly as parsed.  The stdlib
parser is embedded below for its IPv4 branch; the IPv6 branch is omitted
because the repository's address model is 32-bit and every range string it
forms is dotted-quad. -/

/-- One decimal digit as a character. -/
def digitChar (d : Nat) : Char := Char.ofNat (48 + d)

/-- Decimal digits of `n`, most significant first; `fuel` bounds the
recursion and is always given large enough. -/
def natToDecAux : Nat → Nat → List Char
  | 0, _ => []
  | fuel + 1, n =>
    if n < 10 then [digitChar n]
    else natToDecAux fuel (n / 10) ++ [digitChar (n % 10)]

/-- Decimal numeral of `n`, as Go's `uitoa`/`fmt` print it. -/
def natToDec (n : Nat) : List Char := natToDecAux (n + 1) n

/-- The value of a digit string folded onto an accumulator, the way the
stdlib's `dtoi` accumulates it. -/
def valAcc (a : Nat) (ds : List Char) : Nat :=
  ds.foldl (fun n c => n * 10 + (c.toNat - 48)) a

/-- The digit-reading loop of the Go stdlib's `dtoi` (net/ip.go): reads
decimal digits onto the accumulator, stopping at the first non-digit, and
fails once the accumulator reaches `big = 0xFFFFFF`. -/
def dtoiAux (n : Nat) : List Char → Option (Nat × List Char)
  | [] => some (n, [])
  | c :: rest =>
    if '0' ≤ c ∧ c ≤ '9' then
      if 16777215 ≤ n * 10 + (c.toNat - 48) then none
      else dtoiAux (n * 10 + (c.toNat - 48)) rest
    else some (n, c :: rest)

/-- Go stdlib `dtoi`: a nonempty decimal numeral read off the front of the
input; `none` when no digit is present or the value reaches `big`. -/
def dtoi : List Char → Option (Nat × List Char)
  | [] => none
  | c :: rest =>
    if '0' ≤ c ∧ c ≤ '9' then dtoiAux 0 (c :: rest) else none

/-- The `byteIndex(s, '/')` split of Go's `net.ParseCIDR`: the text before
the first slash and the text after it; `none` when there is no slash. -/
def splitSlash : List Char → Option (List Char × List Char)
  | [] => none
  | c :: rest =>
    if c = '/' then some ([], rest)
    else
      match splitSlash rest with
      | none => none
      | some (a, b) => some (c :: a, b)

/-- One field of Go stdlib `parseIPv4`'s loop body: `dtoi` plus the
`!ok || n > 0xFF` rejection. -/
def parseOctet (s : List Char) : Option (Nat × List Char) :=
  match dtoi s with
  | none => none
  | some (n, r) => if 255 < n then none else some (n, r)

/-- The `s[i] != '.'` check between fields of Go stdlib `parseIPv4`. -/
def expectDot : List Char → Option (List Char)
  | [] => none
  | c :: r => if c = '.' then some r else none

/-- Go stdlib `parseIPv4` with its four-field loop unrolled (early returns
become `Option` binds): four dot-separated decimal fields of value at most
255, consuming the whole input; the result is the 32-bit address value. -/
def parseIPv4 (s : List Char) : Option Nat := do
  let (n1, r1) ← parseOctet s
  let r1d ← expectDot r1
  let (n2, r2) ← parseOctet r1d
  let r2d ← expectDot r2
  let (n3, r3) ← parseOctet r2d
  let r3d ← expectDot r3
  let (n4, r4) ← parseOctet r3d
  match r4 with
  | [] => some (n1 * 16777216 + n2 * 65536 + n3 * 256 + n4)
  | _ => none

/-! ### The IPv6 branch of the stdlib parser -/

/-- The value of one hexadecimal digit, `none` for any other character (the
three character ranges of Go stdlib `xtoi`'s loop). -/
def hexDigitVal (c : Char) : Option Nat :=
  if '0' ≤ c ∧ c ≤ '9' then some (c.toNat - 48)
  else if 'a' ≤ c ∧ c ≤ 'f' then some (c.toNat - 97 + 10)
  else if 'A' ≤ c ∧ c ≤ 'F' then some (c.toNat - 65 + 10)
  else none

/-- The digit loop of Go stdlib `xtoi` (net/ip.go): reads hex digits onto
the accumulator, stopping at the first non-hex character and failing once
the accumulator reaches `big = 0xFFFFFF`. -/
def xtoiAux (n : Nat) : List Char → Option (Nat × List Char)
  | [] => some (n, [])
  | c :: rest =>
    match hexDigitVal c with
    | none => some (n, c :: rest)
    | some d =>
      if 16777215 ≤ n * 16 + d then none
      else xtoiAux (n * 16 + d) rest

/-- Go stdlib `xtoi`: a nonempty hexadecimal numeral read off the front of
the input. -/
def xtoi : List Char → Option (Nat × List Char)
  | [] => none
  | c :: rest =>
    match hexDigitVal c with
    | none => none
    | some _ => xtoiAux 0 (c :: rest)

theorem xtoiAux_length_le :
    ∀ (l : List Char) (a n : Nat) (c : List Char), xtoiAux a l = some (n, c) →
      c.length ≤ l.length
  | [], a, n, c => by
    intro h
    rw [xtoiAux] at h
    cases h
    exact Nat.le_refl _
  | d :: rest, a, n, c => by
    intro h
    rw [xtoiAux] at h
    match hd : hexDigitVal d with
    | none =>
      rw [hd] at h
      cases h
      exact Nat.le_refl _
    | some v =>
      rw [hd] at h
      dsimp only at h
      by_cases hcap : 16777215 ≤ a * 16 + v
      · rw [if_pos hcap] at h
        cases h
      · rw [if_neg hcap] at h
        exact Nat.le_succ_of_le (xtoiAux_length_le rest _ n c h)

theorem xtoi_length_lt {l : List Char} {n : Nat} {c : List Char}
    (h : xtoi l = some (n, c)) : c.length < l.length := by
  match l, h with
  | d :: rest, h =>
    rw [xtoi] at h
    match hd : hexDigitVal d with
    | none => rw [hd] at h; cases h
    | some v =>
      rw [hd] at h
      rw [xtoiAux, hd] at h
      dsimp only at h
      by_cases hcap : 16777215 ≤ 0 * 16 + v
      · rw [if_pos hcap] at h
        cases h
      · rw [if_neg hcap] at h
        exact Nat.lt_succ_of_le (xtoiAux_length_le rest _ n c h)

/-- The zeros an ellipsis stands for, inserted at byte position `e` (the
effect of the shift-and-zero expansion after Go stdlib `parseIPv6`'s loop). -/
def fillEllipsis (bytes : List Nat) (e : Nat) : List Nat :=
  bytes.take e ++ List.replicate (16 - bytes.length) 0 ++ bytes.drop e

/-- The exit checks after Go stdlib `parseIPv6`'s loop: fewer than 16 bytes
need an ellipsis to expand; a full 16 bytes forbid one (it must stand for
at least one zero group). -/
def finishIPv6 (bytes : List Nat) (ell : Option Nat) : Option (List Nat) :=
  if bytes.length < 16 then
    match ell with
    | none => none
    | some e => some (fillEllipsis bytes e)
  else
    match ell with
    | some _ => none
    | none => some bytes

/-- The group loop of Go stdlib `parseIPv6` (net/ip.go, zones disallowed as
`ParseCIDR` calls it): `bytes` holds the bytes filled so far and `ell` the
byte position of the `::` if one was seen.  Each round reads one hex group
of value at most 0xFFFF; a dot after the hex run switches to the trailing
dotted-quad (allowed at byte 12, or anywhere once an ellipsis was seen);
otherwise the group is stored and the loop ends at the end of the string,
continues after a single colon, or records the one allowed ellipsis at a
double colon.  Input left over once 16 bytes are filled is an error. -/
def parseIPv6Loop (bytes : List Nat) (ell : Option Nat) (s : List Char) :
    Option (List Nat) :=
  if 16 ≤ bytes.length then none
  else
    match hx : xtoi s with
    | none => none
    | some (n, c) =>
      if 65535 < n then none
      else
        match hc : c with
        | [] => finishIPv6 (bytes ++ [n / 256 % 256, n % 256]) ell
        | ch :: rest =>
          if ch = '.' then
            if ell = none ∧ bytes.length ≠ 12 then none
            else if 16 < bytes.length + 4 then none
            else
              match parseIPv4 s with
              | none => none
              | some ip4 =>
                finishIPv6 (bytes ++ [ip4 / 16777216 % 256, ip4 / 65536 % 256,
                  ip4 / 256 % 256, ip4 % 256]) ell
          else if ch = ':' then
            match hr : rest with
            | [] => none
            | c2 :: rest2 =>
              if c2 = ':' then
                if ell ≠ none then none
                else if rest2 = [] then
                  finishIPv6 (bytes ++ [n / 256 % 256, n % 256])
                    (some (bytes.length + 2))
                else
                  parseIPv6Loop (bytes ++ [n / 256 % 256, n % 256])
                    (some (bytes.length + 2)) rest2
              else
                parseIPv6Loop (bytes ++ [n / 256 % 256, n % 256]) ell rest
          else none
termination_by s.length
decreasing_by
  all_goals
    (have h1 := xtoi_length_lt hx
     subst hc
     subst hr
     simp only [List.length_cons] at h1 ⊢
     omega)

/-- Go stdlib `parseIPv6`: a possible leading `::` (alone it is the
all-zero address), then the group loop.  The result is the 16 address
bytes. -/
def parseIPv6 (s : List Char) : Option (List Nat) :=
  match s with
  | c1 :: c2 :: rest =>
    if c1 = ':' ∧ c2 = ':' then
      if rest = [] then some (List.replicate 16 0)
      else parseIPv6Loop [] (some 0) rest
    else parseIPv6Loop [] none (c1 :: c2 :: rest)
  | _ => parseIPv6Loop [] none s

/-- The address bytes as one number, most significant byte first. -/
def bytesToNat (bs : List Nat) : Nat := bs.foldl (fun a b => a * 256 + b) 0

/-- The result of the source's `parseCIDR`: a `*net.IPNet` whose `IP` field
was overwritten with the address exactly as parsed (`ipnet.IP = ip` in
src/ipam/tracker/awsvpc.go) and whose mask is a prefix length. -/
structure IPNetM where
  ip : Nat
  maskLen : Nat
deriving DecidableEq, Repr

/-- `parseCIDR` from src/ipam/tracker/awsvpc.go over the stdlib's
`net.ParseCIDR`: split at the first slash, parse the address (IPv4 first,
falling back to IPv6, which fixes the byte length the prefix is checked
against), read the whole mask text as a decimal of at most `8 * iplen`, and
keep the unmasked address. -/
def parseCIDR (s : String) : Option IPNetM := do
  let (addr, mask) ← splitSlash s.data
  let (ip, iplen) ←
    (match parseIPv4 addr with
     | some ip => some (ip, 4)
     | none =>
       match parseIPv6 addr with
       | some bs => some (bytesToNat bs, 16)
       | none => none)
  let (n, rest) ← dtoi mask
  if rest = [] ∧ n ≤ 8 * iplen then some ⟨ip, n⟩ else none

/-- Dotted-quad form of a 32-bit address, octet by octet, as the stdlib
prints a 4-byte IP. -/
def dottedQuad (ip : Nat) : List Char :=
  natToDec (ip / 16777216 % 256) ++
    ('.' :: (natToDec (ip / 65536 % 256) ++
      ('.' :: (natToDec (ip / 256 % 256) ++
        ('.' :: natToDec (ip % 256))))))

/-- A range string: dotted-quad address, slash, decimal prefix length. -/
def cidrStrOf (ip len : Nat) : String := ⟨dottedQuad ip ++ '/' :: natToDec len⟩

/-- Modelled from the spec: the canonical string form of a range, the key
passed to the routing backends (`address.CIDR.String()`, not under `src/`):
dotted-quad base address, a slash, the prefix length in decimal. -/
def CIDR.toStr (c : CIDR) : String := cidrStrOf c.addr c.prefixLen

/-- `(*net.IPNet).String()` for an IPv4 network with a CIDR mask: the stored
(unmasked) IP in dotted-quad form, a slash, the mask length. -/
def IPNetM.toStr (m : IPNetM) : String := cidrStrOf m.ip m.maskLen

/-! ### Decimal digits: printing and reading are inverse -/

theorem digitChar_isDigit {d : Nat} (h : d < 10) :
    '0' ≤ digitChar d ∧ digitChar d ≤ '9' := by
  interval_cases d <;> decide

theorem digitChar_val {d : Nat} (h : d < 10) : (digitChar d).toNat - 48 = d := by
  interval_cases d <;> decide

theorem natToDecAux_digits :
    ∀ fuel n, ∀ c ∈ natToDecAux fuel n, '0' ≤ c ∧ c ≤ '9'
  | 0, n => by simp [natToDecAux]
  | fuel + 1, n => by
    by_cases h : n < 10
    · simpa [natToDecAux, h] using digitChar_isDigit h
    · intro c hc
      rw [natToDecAux, if_neg h] at hc
      rcases List.mem_append.1 hc with h1 | h1
      · exact natToDecAux_digits fuel (n / 10) c h1
      · have : c = digitChar (n % 10) := by simpa using h1
        subst this
        exact digitChar_isDigit (Nat.mod_lt _ (by norm_num))

theorem natToDec_digits (n : Nat) : ∀ c ∈ natToDec n, '0' ≤ c ∧ c ≤ '9' :=
  natToDecAux_digits (n + 1) n

theorem natToDec_ne_nil (n : Nat) : natToDec n ≠ [] := by
  unfold natToDec natToDecAux
  by_cases h : n < 10 <;> simp [h]

theorem valAcc_append (a : Nat) (l m : List Char) :
    valAcc a (l ++ m) = valAcc (valAcc a l) m := by
  simp [valAcc, List.foldl_append]

theorem le_valAcc : ∀ (ds : List Char) (a : Nat), a ≤ valAcc a ds
  | [], a => le_refl a
  | c :: ds, a => by
    have := le_valAcc ds (a * 10 + (c.toNat - 48))
    simp only [valAcc, List.foldl_cons] at this ⊢
    omega

theorem valAcc_natToDecAux :
    ∀ fuel n a, n < 10 ^ fuel →
      valAcc a (natToDecAux fuel n) = a * 10 ^ (natToDecAux fuel n).length + n
  | 0, n, a => by
    intro h
    simp only [pow_zero, Nat.lt_one_iff] at h
    simp [natToDecAux, valAcc, h]
  | fuel + 1, n, a => by
    intro h
    by_cases hn : n < 10
    · simp [natToDecAux, hn, valAcc, digitChar_val hn]
    · have hdiv : n / 10 < 10 ^ fuel := by
        rw [pow_succ] at h
        exact Nat.div_lt_of_lt_mul (by omega)
      have ih := valAcc_natToDecAux fuel (n / 10) a hdiv
      rw [natToDecAux, if_neg hn, valAcc_append, ih]
      simp only [valAcc, List.foldl_cons, List.foldl_nil, List.length_append,
        List.length_singleton]
      rw [digitChar_val (Nat.mod_lt _ (by norm_num))]
      ring_nf
      omega

theorem valAcc_natToDec (n : Nat) : valAcc 0 (natToDec n) = n := by
  have h : n < 10 ^ (n + 1) :=
    lt_of_lt_of_le (Nat.lt_pow_self (by norm_num) n)
      (Nat.pow_le_pow_right (by norm_num) (Nat.le_succ n))
  simpa using valAcc_natToDecAux (n + 1) n 0 h

/-- The first character of the remainder, if any, is not a digit. -/
def NoDigitHead : List Char → Prop
  | [] => True
  | c :: _ => ¬('0' ≤ c ∧ c ≤ '9')

theorem dtoiAux_reads :
    ∀ (ds : List Char) (a : Nat) (r : List Char),
      (∀ c ∈ ds, '0' ≤ c ∧ c ≤ '9') → valAcc a ds < 16777215 → NoDigitHead r →
      dtoiAux a (ds ++ r) = some (valAcc a ds, r)
  | [], a, r => by
    intro _ hv hr
    match r with
    | [] => simp [dtoiAux, valAcc]
    | c :: r' =>
      have hc : ¬('0' ≤ c ∧ c ≤ '9') := hr
      simp only [List.nil_append, dtoiAux, if_neg hc, valAcc, List.foldl_nil]
  | d :: ds, a, r => by
    intro hd hv hr
    have hdig : '0' ≤ d ∧ d ≤ '9' := hd d (List.mem_cons_self d ds)
    have hstep : valAcc a (d :: ds) = valAcc (a * 10 + (d.toNat - 48)) ds := by
      simp [valAcc]
    have hle : a * 10 + (d.toNat - 48) ≤ valAcc a (d :: ds) := by
      rw [hstep]; exact le_valAcc ds _
    rw [List.cons_append, dtoiAux, if_pos hdig, if_neg (by omega)]
    rw [dtoiAux_reads ds _ r (fun c hc => hd c (List.mem_cons_of_mem d hc))
      (by rw [← hstep]; exact hv) hr]
    rw [hstep]

theorem dtoi_reads (ds r : List Char) (hd : ∀ c ∈ ds, '0' ≤ c ∧ c ≤ '9')
    (hne : ds ≠ []) (hv : valAcc 0 ds < 16777215) (hr : NoDigitHead r) :
    dtoi (ds ++ r) = some (valAcc 0 ds, r) := by
  match ds, hne with
  | d :: ds', _ =>
    have hdig : '0' ≤ d ∧ d ≤ '9' := hd d (List.mem_cons_self d ds')
    rw [List.cons_append, dtoi, if_pos hdig, ← List.cons_append]
    exact dtoiAux_reads (d :: ds') 0 r hd hv hr

theorem dtoi_natToDec (n : Nat) (r : List Char) (h : n < 16777215)
    (hr : NoDigitHead r) : dtoi (natToDec n ++ r) = some (n, r) := by
  rw [dtoi_reads (natToDec n) r (natToDec_digits n) (natToDec_ne_nil n)
    (by rw [valAcc_natToDec]; exact h) hr, valAcc_natToDec]

theorem parseOctet_reads (ds r : List Char) (hd : ∀ c ∈ ds, '0' ≤ c ∧ c ≤ '9')
    (hne : ds ≠ []) (hv : valAcc 0 ds ≤ 255) (hr : NoDigitHead r) :
    parseOctet (ds ++ r) = some (valAcc 0 ds, r) := by
  rw [parseOctet, dtoi_reads ds r hd hne (by omega) hr]
  simp only [if_neg (by omega : ¬255 < valAcc 0 ds)]

theorem parseOctet_natToDec (n : Nat) (r : List Char) (h : n ≤ 255)
    (hr : NoDigitHead r) : parseOctet (natToDec n ++ r) = some (n, r) := by
  have := parseOctet_reads (natToDec n) r (natToDec_digits n) (natToDec_ne_nil n)
    (by rw [valAcc_natToDec]; exact h) hr
  rwa [valAcc_natToDec] at this

theorem splitSlash_append (l r : List Char) (h : '/' ∉ l) :
    splitSlash (l ++ '/' :: r) = some (l, r) := by
  induction l with
  | nil => simp [splitSlash]
  | cons c l ih =>
    have hc : c ≠ '/' := fun hc => h (hc ▸ List.mem_cons_self c l)
    have hl : '/' ∉ l := fun hl => h (List.mem_cons_of_mem c hl)
    rw [List.cons_append, splitSlash, if_neg hc, ih hl]

theorem splitSlash_eq :
    ∀ {l a b : List Char}, splitSlash l = some (a, b) →
      l = a ++ '/' :: b ∧ '/' ∉ a
  | [], a, b => by simp [splitSlash]
  | c :: rest, a, b => by
    intro h
    rw [splitSlash] at h
    by_cases hc : c = '/'
    · rw [if_pos hc] at h
      cases h
      subst hc
      simp
    · rw [if_neg hc] at h
      match hrec : splitSlash rest with
      | none => rw [hrec] at h; cases h
      | some (a', b') =>
        rw [hrec] at h
        cases h
        obtain ⟨h1, h2⟩ := splitSlash_eq hrec
        exact ⟨by rw [List.cons_append, ← h1], by
          intro hm
          rcases List.mem_cons.1 hm with h | h
          · exact hc h.symm
          · exact h2 h⟩

theorem digit_ne_slash {c : Char} (h : '0' ≤ c ∧ c ≤ '9') : c ≠ '/' := by
  intro hc
  subst hc
  revert h
  decide

theorem dottedQuad_no_slash (ip : Nat) : '/' ∉ dottedQuad ip := by
  intro h
  unfold dottedQuad at h
  simp only [List.mem_append, List.mem_cons] at h
  rcases h with h | h | h | h | h | h | h
  · exact digit_ne_slash (natToDec_digits _ _ h) rfl
  · exact absurd h (by decide)
  · exact digit_ne_slash (natToDec_digits _ _ h) rfl
  · exact absurd h (by decide)
  · exact digit_ne_slash (natToDec_digits _ _ h) rfl
  · exact absurd h (by decide)
  · exact digit_ne_slash (natToDec_digits _ _ h) rfl

theorem noDigitHead_dot (l : List Char) : NoDigitHead ('.' :: l) := by
  show ¬('0' ≤ '.' ∧ '.' ≤ '9')
  decide

theorem noDigitHead_nil : NoDigitHead ([] : List Char) := trivial

theorem parseIPv4_dottedQuad (ip : Nat) (h : ip < 2 ^ 32) :
    parseIPv4 (dottedQuad ip) = some ip := by
  have h1 : ip / 16777216 % 256 ≤ 255 := by omega
  have h2 : ip / 65536 % 256 ≤ 255 := by omega
  have h3 : ip / 256 % 256 ≤ 255 := by omega
  have h4 : ip % 256 ≤ 255 := by omega
  rw [parseIPv4, dottedQuad]
  rw [parseOctet_natToDec _ _ h1 (noDigitHead_dot _)]
  simp only [Option.bind_eq_bind, Option.some_bind, expectDot, if_true]
  rw [parseOctet_natToDec _ _ h2 (noDigitHead_dot _)]
  simp only [Option.some_bind, expectDot, if_true]
  rw [parseOctet_natToDec _ _ h3 (noDigitHead_dot _)]
  simp only [Option.some_bind, expectDot, if_true]
  rw [show natToDec (ip % 256) = natToDec (ip % 256) ++ [] from (List.append_nil _).symm,
    parseOctet_natToDec _ [] h4 noDigitHead_nil]
  simp only [Option.some_bind]
  congr 1
  omega

/-- `parseCIDR` recovers base address and prefix length from the canonical
string of a valid range. -/
theorem parseCIDR_toStr {c : CIDR} (h : c.Valid) :
    parseCIDR c.toStr = some ⟨c.addr, c.prefixLen⟩ := by
  obtain ⟨ha, hp⟩ := h
  rw [parseCIDR, CIDR.toStr, cidrStrOf]
  show (splitSlash (dottedQuad c.addr ++ '/' :: natToDec c.prefixLen)).bind _ = _
  rw [splitSlash_append _ _ (dottedQuad_no_slash c.addr)]
  simp only [Option.some_bind, parseIPv4_dottedQuad c.addr ha]
  rw [show natToDec c.prefixLen = natToDec c.prefixLen ++ [] by simp,
    dtoi_natToDec _ _ (by omega) (by trivial)]
  simp [hp]

/-- The canonical string form is injective on valid ranges. -/
theorem toStr_injOn {c1 c2 : CIDR} (h1 : c1.Valid) (h2 : c2.Valid)
    (h : c1.toStr = c2.toStr) : c1 = c2 := by
  have e1 := parseCIDR_toStr h1
  have e2 := parseCIDR_toStr h2
  rw [h, e2] at e1
  cases c1
  cases c2
  simpa using e1.symm

/-! ## The tracker and the two-phase synchronizer

`HandleUpdate` diffs the two range sets and applies the diff to the two
routing backends: additions first (cloud route then host route per range),
then removals, aborting on the first failure.  Backend behaviour is a
function from operations to outcomes; the trace of issued operations is made
explicit so ordering and failure claims can be stated. -/

/-- A backend operation, keyed by the canonical range string (the spec's
backend interface: add/remove route on the cloud-provider or host table). -/
inductive Op where
  | addCloud (cidr : String)
  | addHost (cidr : String)
  | removeCloud (cidr : String)
  | removeHost (cidr : String)
deriving DecidableEq, Repr

/-- A backend behaviour: the outcome of each operation when issued, `none`
for success, `some e` for failure with error text `e` (the ec2 call and the
netlink call outcomes). -/
def Backend := Op → Option String

/-- Does the operation belong to the add phase? -/
def Op.isAddOp : Op → Bool
  | Op.addCloud _ => true
  | Op.addHost _ => true
  | _ => false

/-- The tracker struct of src/ipam/tracker/awsvpc.go; the ec2 client is an
opaque handle. -/
structure AWSVPCTracker where
  ec2 : Nat
  instanceID : String
  routeTableID : String
  linkIndex : Int
deriving DecidableEq, Repr

/-- `createVPCRoute`: issues the ec2 CreateRoute call for the range string.
The method writes no tracker field; it returns the tracker, the issued
operation, and the backend outcome. -/
def createVPCRoute (t : AWSVPCTracker) (B : Backend) (cidr : String) :
    AWSVPCTracker × List Op × Option String :=
  (t, [Op.addCloud cidr], B (Op.addCloud cidr))

/-- `createHostRoute`: parses the range string and, on success, issues the
netlink RouteAdd call (keyed here by the range string the route was built
from); a parse failure returns the stdlib parse error with no backend call. -/
def createHostRoute (t : AWSVPCTracker) (B : Backend) (cidr : String) :
    AWSVPCTracker × List Op × Option String :=
  match parseCIDR cidr with
  | none => (t, [], some ("invalid CIDR address: " ++ cidr))
  | some _ => (t, [Op.addHost cidr], B (Op.addHost cidr))

/-- `deleteVPCRoute`: issues the ec2 DeleteRoute call for the range string. -/
def deleteVPCRoute (t : AWSVPCTracker) (B : Backend) (cidr : String) :
    AWSVPCTracker × List Op × Option String :=
  (t, [Op.removeCloud cidr], B (Op.removeCloud cidr))

/-- `deleteHostRoute`: parses the range string and, on success, issues the
netlink RouteDel call; a parse failure returns the stdlib parse error with
no backend call. -/
def deleteHostRoute (t : AWSVPCTracker) (B : Backend) (cidr : String) :
    AWSVPCTracker × List Op × Option String :=
  match parseCIDR cidr with
  | none => (t, [], some ("invalid CIDR address: " ++ cidr))
  | some _ => (t, [Op.removeHost cidr], B (Op.removeHost cidr))

/-- The "Add new entries" loop of `HandleUpdate`: per range, cloud route
then host route, aborting on the first failure with the wrapped error. -/
def addRoutes (t : AWSVPCTracker) (B : Backend) :
    List CIDR → AWSVPCTracker × List Op × Option String
  | [] => (t, [], none)
  | cidr :: rest =>
    match createVPCRoute t B cidr.toStr with
    | (t1, ops1, some e) => (t1, ops1, some ("createVPCRoutes failed: " ++ e))
    | (t1, ops1, none) =>
      match createHostRoute t1 B cidr.toStr with
      | (t2, ops2, some e) => (t2, ops1 ++ ops2, some ("createHostRoute failed: " ++ e))
      | (t2, ops2, none) =>
        match addRoutes t2 B rest with
        | (t3, ops3, res) => (t3, ops1 ++ ops2 ++ ops3, res)

/-- The "Remove obsolete entries" loop of `HandleUpdate`: per range, cloud
route then host route, aborting on the first failure with the wrapped error. -/
def removeRoutes (t : AWSVPCTracker) (B : Backend) :
    List CIDR → AWSVPCTracker × List Op × Option String
  | [] => (t, [], none)
  | cidr :: rest =>
    match deleteVPCRoute t B cidr.toStr with
    | (t1, ops1, some e) => (t1, ops1, some ("deleteVPCRoute failed: " ++ e))
    | (t1, ops1, none) =>
      match deleteHostRoute t1 B cidr.toStr with
      | (t2, ops2, some e) => (t2, ops1 ++ ops2, some ("deleteHostRoute failed: " ++ e))
      | (t2, ops2, none) =>
        match removeRoutes t2 B rest with
        | (t3, ops3, res) => (t3, ops1 ++ ops2 ++ ops3, res)

/-- `HandleUpdate` (src/ipam/tracker/awsvpc.go): diff the two range sets,
add the entries only in `currRanges`, then remove the entries only in
`prevRanges`, aborting on the first failure.  `address.NewCIDRs` (not under
`src/`) is modelled from the spec as supplying the caller's already-sorted
range sets directly in CIDR form. -/
def handleUpdate (t : AWSVPCTracker) (B : Backend)
    (prevRanges currRanges : List CIDR) :
    AWSVPCTracker × List Op × Option String :=
  let pc := removeCommon prevRanges currRanges
  match addRoutes t B pc.2 with
  | (t1, ops1, some e) => (t1, ops1, some e)
  | (t1, ops1, none) =>
    match removeRoutes t1 B pc.1 with
    | (t2, ops2, res) => (t2, ops1 ++ ops2, res)

/-- The canonical add-phase call sequence: cloud then host per added range. -/
def addTrace : List CIDR → List Op
  | [] => []
  | c :: rest => Op.addCloud c.toStr :: Op.addHost c.toStr :: addTrace rest

/-- The canonical remove-phase call sequence: cloud then host per removed
range. -/
def removeTrace : List CIDR → List Op
  | [] => []
  | c :: rest => Op.removeCloud c.toStr :: Op.removeHost c.toStr :: removeTrace rest

/-- The canonical full call sequence of a reconciliation: all additions,
then all removals. -/
def canonTrace (prevRanges currRanges : List CIDR) : List Op :=
  addTrace (removeCommon prevRanges currRanges).2 ++
    removeTrace (removeCommon prevRanges currRanges).1

/-- Backend tables as sets of range strings (cloud table, host table): an
add operation inserts its key, a remove operation deletes it. -/
def applyOp (st : Finset String × Finset String) (o : Op) :
    Finset String × Finset String :=
  match o with
  | Op.addCloud s => (insert s st.1, st.2)
  | Op.addHost s => (st.1, insert s st.2)
  | Op.removeCloud s => (st.1.erase s, st.2)
  | Op.removeHost s => (st.1, st.2.erase s)

/-- The backend state after a trace of operations. -/
def applyTrace (st : Finset String × Finset String) (ops : List Op) :
    Finset String × Finset String :=
  ops.foldl applyOp st

/-- The set of range strings of a range set. -/
def strsOf (l : List CIDR) : Finset String := (l.map CIDR.toStr).toFinset

/-- How `HandleUpdate` shapes the error it returns for the operation it
stopped at: the wrapping message names the failed call and carries the
backend's (or the parser's) error text verbatim. -/
def FailureShape (B : Backend) (o : Op) (e : String) : Prop :=
  (∃ s u, o = Op.addCloud s ∧ B o = some u ∧
    e = "createVPCRoutes failed: " ++ u) ∨
  (∃ s, o = Op.addCloud s ∧ B o = none ∧ parseCIDR s = none ∧
    e = "createHostRoute failed: " ++ ("invalid CIDR address: " ++ s)) ∨
  (∃ s u, o = Op.addHost s ∧ B o = some u ∧
    e = "createHostRoute failed: " ++ u) ∨
  (∃ s u, o = Op.removeCloud s ∧ B o = some u ∧
    e = "deleteVPCRoute failed: " ++ u) ∨
  (∃ s, o = Op.removeCloud s ∧ B o = none ∧ parseCIDR s = none ∧
    e = "deleteHostRoute failed: " ++ ("invalid CIDR address: " ++ s)) ∨
  (∃ s u, o = Op.removeHost s ∧ B o = some u ∧
    e = "deleteHostRoute failed: " ++ u)

/-! ### How the two loops unfold, case by case -/

theorem addRoutes_cons_cloudFail {t : AWSVPCTracker} {B : Backend} {c : CIDR}
    {rest : List CIDR} {e : String} (h : B (Op.addCloud c.toStr) = some e) :
    addRoutes t B (c :: rest) =
      (t, [Op.addCloud c.toStr], some ("createVPCRoutes failed: " ++ e)) := by
  simp [addRoutes, createVPCRoute, h]

theorem addRoutes_cons_parseFail {t : AWSVPCTracker} {B : Backend} {c : CIDR}
    {rest : List CIDR} (h1 : B (Op.addCloud c.toStr) = none)
    (h2 : parseCIDR c.toStr = none) :
    addRoutes t B (c :: rest) =
      (t, [Op.addCloud c.toStr],
        some ("createHostRoute failed: " ++ ("invalid CIDR address: " ++ c.toStr))) := by
  simp [addRoutes, createVPCRoute, createHostRoute, h1, h2]

theorem addRoutes_cons_hostFail {t : AWSVPCTracker} {B : Backend} {c : CIDR}
    {rest : List CIDR} {m : IPNetM} {e : String}
    (h1 : B (Op.addCloud c.toStr) = none) (h2 : parseCIDR c.toStr = some m)
    (h3 : B (Op.addHost c.toStr) = some e) :
    addRoutes t B (c :: rest) =
      (t, [Op.addCloud c.toStr, Op.addHost c.toStr],
        some ("createHostRoute failed: " ++ e)) := by
  simp [addRoutes, createVPCRoute, createHostRoute, h1, h2, h3]

theorem addRoutes_cons_ok {t : AWSVPCTracker} {B : Backend} {c : CIDR}
    {rest : List CIDR} {m : IPNetM}
    (h1 : B (Op.addCloud c.toStr) = none) (h2 : parseCIDR c.toStr = some m)
    (h3 : B (Op.addHost c.toStr) = none) :
    addRoutes t B (c :: rest) =
      ((addRoutes t B rest).1,
        Op.addCloud c.toStr :: Op.addHost c.toStr :: (addRoutes t B rest).2.1,
        (addRoutes t B rest).2.2) := by
  rcases hr : addRoutes t B rest with ⟨t3, ops3, res⟩
  simp [addRoutes, createVPCRoute, createHostRoute, h1, h2, h3, hr]

theorem removeRoutes_cons_cloudFail {t : AWSVPCTracker} {B : Backend} {c : CIDR}
    {rest : List CIDR} {e : String} (h : B (Op.removeCloud c.toStr) = some e) :
    removeRoutes t B (c :: rest) =
      (t, [Op.removeCloud c.toStr], some ("deleteVPCRoute failed: " ++ e)) := by
  simp [removeRoutes, deleteVPCRoute, h]

theorem removeRoutes_cons_parseFail {t : AWSVPCTracker} {B : Backend} {c : CIDR}
    {rest : List CIDR} (h1 : B (Op.removeCloud c.toStr) = none)
    (h2 : parseCIDR c.toStr = none) :
    removeRoutes t B (c :: rest) =
      (t, [Op.removeCloud c.toStr],
        some ("deleteHostRoute failed: " ++ ("invalid CIDR address: " ++ c.toStr))) := by
  simp [removeRoutes, deleteVPCRoute, deleteHostRoute, h1, h2]

theorem removeRoutes_cons_hostFail {t : AWSVPCTracker} {B : Backend} {c : CIDR}
    {rest : List CIDR} {m : IPNetM} {e : String}
    (h1 : B (Op.removeCloud c.toStr) = none) (h2 : parseCIDR c.toStr = some m)
    (h3 : B (Op.removeHost c.toStr) = some e) :
    removeRoutes t B (c :: rest) =
      (t, [Op.removeCloud c.toStr, Op.removeHost c.toStr],
        some ("deleteHostRoute failed: " ++ e)) := by
  simp [removeRoutes, deleteVPCRoute, deleteHostRoute, h1, h2, h3]

theorem removeRoutes_cons_ok {t : AWSVPCTracker} {B : Backend} {c : CIDR}
    {rest : List CIDR} {m : IPNetM}
    (h1 : B (Op.removeCloud c.toStr) = none) (h2 : parseCIDR c.toStr = some m)
    (h3 : B (Op.removeHost c.toStr) = none) :
    removeRoutes t B (c :: rest) =
      ((removeRoutes t B rest).1,
        Op.removeCloud c.toStr :: Op.removeHost c.toStr :: (removeRoutes t B rest).2.1,
        (removeRoutes t B rest).2.2) := by
  rcases hr : removeRoutes t B rest with ⟨t3, ops3, res⟩
  simp [removeRoutes, deleteVPCRoute, deleteHostRoute, h1, h2, h3, hr]

/-- `sub` sits at the front of `l`. -/
def startsWithL : List Char → List Char → Bool
  | _, [] => true
  | [], _ :: _ => false
  | c :: l, d :: m => c == d && startsWithL l m

/-- `sub` occurs contiguously somewhere in `l`. -/
def containsSeq : List Char → List Char → Bool
  | [], sub => startsWithL [] sub
  | c :: rest, sub => startsWithL (c :: rest) sub || containsSeq rest sub

/-- Does the string `s` contain `sub` as a contiguous substring? -/
def strContains (s sub : String) : Bool := containsSeq s.data sub.data

/-! ### Phase lemmas: tracker frame, canonical prefix, success and failure -/

theorem addRoutes_tracker (t : AWSVPCTracker) (B : Backend) :
    ∀ cs, (addRoutes t B cs).1 = t
  | [] => rfl
  | c :: rest => by
    match h1 : B (Op.addCloud c.toStr) with
    | some e => rw [addRoutes_cons_cloudFail h1]
    | none =>
      match h2 : parseCIDR c.toStr with
      | none => rw [addRoutes_cons_parseFail h1 h2]
      | some m =>
        match h3 : B (Op.addHost c.toStr) with
        | some e => rw [addRoutes_cons_hostFail h1 h2 h3]
        | none =>
          rw [addRoutes_cons_ok h1 h2 h3]
          exact addRoutes_tracker t B rest

theorem removeRoutes_tracker (t : AWSVPCTracker) (B : Backend) :
    ∀ cs, (removeRoutes t B cs).1 = t
  | [] => rfl
  | c :: rest => by
    match h1 : B (Op.removeCloud c.toStr) with
    | some e => rw [removeRoutes_cons_cloudFail h1]
    | none =>
      match h2 : parseCIDR c.toStr with
      | none => rw [removeRoutes_cons_parseFail h1 h2]
      | some m =>
        match h3 : B (Op.removeHost c.toStr) with
        | some e => rw [removeRoutes_cons_hostFail h1 h2 h3]
        | none =>
          rw [removeRoutes_cons_ok h1 h2 h3]
          exact removeRoutes_tracker t B rest

theorem addRoutes_take (t : AWSVPCTracker) (B : Backend) :
    ∀ cs, ∃ k, k ≤ (addTrace cs).length ∧
      (addRoutes t B cs).2.1 = (addTrace cs).take k
  | [] => ⟨0, by simp [addRoutes, addTrace], by simp [addRoutes, addTrace]⟩
  | c :: rest => by
    match h1 : B (Op.addCloud c.toStr) with
    | some e =>
      refine ⟨1, by simp [addTrace], ?_⟩
      rw [addRoutes_cons_cloudFail h1]
      simp [addTrace]
    | none =>
      match h2 : parseCIDR c.toStr with
      | none =>
        refine ⟨1, by simp [addTrace], ?_⟩
        rw [addRoutes_cons_parseFail h1 h2]
        simp [addTrace]
      | some m =>
        match h3 : B (Op.addHost c.toStr) with
        | some e =>
          refine ⟨2, by simp [addTrace], ?_⟩
          rw [addRoutes_cons_hostFail h1 h2 h3]
          simp [addTrace]
        | none =>
          obtain ⟨k, hk, hops⟩ := addRoutes_take t B rest
          refine ⟨k + 2, by simp [addTrace]; omega, ?_⟩
          rw [addRoutes_cons_ok h1 h2 h3]
          simp [addTrace, hops]

theorem removeRoutes_take (t : AWSVPCTracker) (B : Backend) :
    ∀ cs, ∃ k, k ≤ (removeTrace cs).length ∧
      (removeRoutes t B cs).2.1 = (removeTrace cs).take k
  | [] => ⟨0, by simp [removeRoutes, removeTrace], by simp [removeRoutes, removeTrace]⟩
  | c :: rest => by
    match h1 : B (Op.removeCloud c.toStr) with
    | some e =>
      refine ⟨1, by simp [removeTrace], ?_⟩
      rw [removeRoutes_cons_cloudFail h1]
      simp [removeTrace]
    | none =>
      match h2 : parseCIDR c.toStr with
      | none =>
        refine ⟨1, by simp [removeTrace], ?_⟩
        rw [removeRoutes_cons_parseFail h1 h2]
        simp [removeTrace]
      | some m =>
        match h3 : B (Op.removeHost c.toStr) with
        | some e =>
          refine ⟨2, by simp [removeTrace], ?_⟩
          rw [removeRoutes_cons_hostFail h1 h2 h3]
          simp [removeTrace]
        | none =>
          obtain ⟨k, hk, hops⟩ := removeRoutes_take t B rest
          refine ⟨k + 2, by simp [removeTrace]; omega, ?_⟩
          rw [removeRoutes_cons_ok h1 h2 h3]
          simp [removeTrace, hops]

theorem addRoutes_success (t : AWSVPCTracker) (B : Backend) :
    ∀ cs t' ops, addRoutes t B cs = (t', ops, none) →
      ops = addTrace cs ∧ ∀ o ∈ ops, B o = none
  | [], t', ops => by
    intro h
    rw [addRoutes] at h
    cases h
    simp [addTrace]
  | c :: rest, t', ops => by
    intro h
    match h1 : B (Op.addCloud c.toStr) with
    | some e => rw [addRoutes_cons_cloudFail h1] at h; cases h
    | none =>
      match h2 : parseCIDR c.toStr with
      | none => rw [addRoutes_cons_parseFail h1 h2] at h; cases h
      | some m =>
        match h3 : B (Op.addHost c.toStr) with
        | some e => rw [addRoutes_cons_hostFail h1 h2 h3] at h; cases h
        | none =>
          rw [addRoutes_cons_ok h1 h2 h3] at h
          rcases hr : addRoutes t B rest with ⟨t3, ops3, res3⟩
          rw [hr] at h
          simp only [Prod.mk.injEq] at h
          obtain ⟨ht, hops, hres⟩ := h
          obtain ⟨he, hall⟩ := addRoutes_success t B rest t3 ops3 (by rw [hr, hres])
          subst hops
          refine ⟨by rw [addTrace, he], ?_⟩
          intro o ho
          rcases List.mem_cons.1 ho with h | h



          · exact h ▸ h1
          · rcases List.mem_cons.1 h with h | h
            · exact h ▸ h3
            · exact hall o h

theorem removeRoutes_success (t : AWSVPCTracker) (B : Backend) :
    ∀ cs t' ops, removeRoutes t B cs = (t', ops, none) →
      ops = removeTrace cs ∧ ∀ o ∈ ops, B o = none
  | [], t', ops => by
    intro h
    rw [removeRoutes] at h
    cases h
    simp [removeTrace]
  | c :: rest, t', ops => by
    intro h
    match h1 : B (Op.removeCloud c.toStr) with
    | some e => rw [removeRoutes_cons_cloudFail h1] at h; cases h
    | none =>
      match h2 : parseCIDR c.toStr with
      | none => rw [removeRoutes_cons_parseFail h1 h2] at h; cases h
      | some m =>
        match h3 : B (Op.removeHost c.toStr) with
        | some e => rw [removeRoutes_cons_hostFail h1 h2 h3] at h; cases h
        | none =>
          rw [removeRoutes_cons_ok h1 h2 h3] at h
          rcases hr : removeRoutes t B rest with ⟨t3, ops3, res3⟩
          rw [hr] at h
          simp only [Prod.mk.injEq] at h
          obtain ⟨ht, hops, hres⟩ := h
          obtain ⟨he, hall⟩ := removeRoutes_success t B rest t3 ops3 (by rw [hr, hres])
          subst hops
          refine ⟨by rw [removeTrace, he], ?_⟩
          intro o ho
          rcases List.mem_cons.1 ho with h | h
          · exact h ▸ h1
          · rcases List.mem_cons.1 h with h | h
            · exact h ▸ h3
            · exact hall o h

theorem addRoutes_fail (t : AWSVPCTracker) (B : Backend) :
    ∀ cs t' ops e, addRoutes t B cs = (t', ops, some e) →
      ops ≠ [] ∧ (∀ o ∈ ops.dropLast, B o = none) ∧
      (∃ o, ops.getLast? = some o ∧ FailureShape B o e) ∧
      ((∃ o ∈ ops, B o ≠ none) ∨ ops.length < (addTrace cs).length)
  | [], t', ops, e => by
    intro h
    rw [addRoutes] at h
    cases h
  | c :: rest, t', ops, e => by
    intro h
    match h1 : B (Op.addCloud c.toStr) with
    | some u =>
      rw [addRoutes_cons_cloudFail h1] at h
      cases h
      refine ⟨by simp, by simp, ⟨Op.addCloud c.toStr, by simp, ?_⟩, ?_⟩
      · exact Or.inl ⟨c.toStr, u, rfl, h1, rfl⟩
      · exact Or.inl ⟨Op.addCloud c.toStr, by simp, by rw [h1]; simp⟩
    | none =>
      match h2 : parseCIDR c.toStr with
      | none =>
        rw [addRoutes_cons_parseFail h1 h2] at h
        cases h
        refine ⟨by simp, by simp, ⟨Op.addCloud c.toStr, by simp, ?_⟩, ?_⟩
        · exact Or.inr (Or.inl ⟨c.toStr, rfl, h1, h2, rfl⟩)
        · refine Or.inr ?_
          simp [addTrace]
      | some m =>
        match h3 : B (Op.addHost c.toStr) with
        | some u =>
          rw [addRoutes_cons_hostFail h1 h2 h3] at h
          cases h
          refine ⟨by simp, ?_, ⟨Op.addHost c.toStr, by simp, ?_⟩, ?_⟩
          · intro o ho
            simp only [List.dropLast_single, List.dropLast_cons₂] at ho
            rcases List.mem_cons.1 ho with h | h
            · exact h ▸ h1
            · simp at h
          · exact Or.inr (Or.inr (Or.inl ⟨c.toStr, u, rfl, h3, rfl⟩))
          · exact Or.inl ⟨Op.addHost c.toStr, by simp, by rw [h3]; simp⟩
        | none =>
          rw [addRoutes_cons_ok h1 h2 h3] at h
          rcases hr : addRoutes t B rest with ⟨t3, ops3, res3⟩
          rw [hr] at h
          simp only [Prod.mk.injEq] at h
          obtain ⟨ht, hops, hres⟩ := h
          obtain ⟨hne, hdrop, ⟨o, hlast, hshape⟩, hor⟩ :=
            addRoutes_fail t B rest t3 ops3 e (by rw [hr, hres])
          subst hops
          match ops3, hne with
          | o3 :: ops3', _ =>
            refine ⟨by simp, ?_, ⟨o, ?_, hshape⟩, ?_⟩
            · intro x hx
              rw [show (Op.addCloud c.toStr :: Op.addHost c.toStr :: o3 :: ops3').dropLast
                  = Op.addCloud c.toStr :: Op.addHost c.toStr :: (o3 :: ops3').dropLast
                  from rfl] at hx
              rcases List.mem_cons.1 hx with h | h
              · exact h ▸ h1
              · rcases List.mem_cons.1 h with h | h
                · exact h ▸ h3
                · exact hdrop x h
            · rw [List.getLast?_cons_cons, List.getLast?_cons_cons]
              exact hlast
            · rcases hor with ⟨x, hx, hBx⟩ | hlen
              · exact Or.inl ⟨x, by simp [hx], hBx⟩
              · refine Or.inr ?_
                simp only [addTrace, List.length_cons] at hlen ⊢
                omega

theorem removeRoutes_fail (t : AWSVPCTracker) (B : Backend) :
    ∀ cs t' ops e, removeRoutes t B cs = (t', ops, some e) →
      ops ≠ [] ∧ (∀ o ∈ ops.dropLast, B o = none) ∧
      (∃ o, ops.getLast? = some o ∧ FailureShape B o e) ∧
      ((∃ o ∈ ops, B o ≠ none) ∨ ops.length < (removeTrace cs).length)
  | [], t', ops, e => by
    intro h
    rw [removeRoutes] at h
    cases h
  | c :: rest, t', ops, e => by
    intro h
    match h1 : B (Op.removeCloud c.toStr) with
    | some u =>
      rw [removeRoutes_cons_cloudFail h1] at h
      cases h
      refine ⟨by simp, by simp, ⟨Op.removeCloud c.toStr, by simp, ?_⟩, ?_⟩
      · exact Or.inr (Or.inr (Or.inr (Or.inl ⟨c.toStr, u, rfl, h1, rfl⟩)))
      · exact Or.inl ⟨Op.removeCloud c.toStr, by simp, by rw [h1]; simp⟩
    | none =>
      match h2 : parseCIDR c.toStr with
      | none =>
        rw [removeRoutes_cons_parseFail h1 h2] at h
        cases h
        refine ⟨by simp, by simp, ⟨Op.removeCloud c.toStr, by simp, ?_⟩, ?_⟩
        · exact Or.inr (Or.inr (Or.inr (Or.inr (Or.inl ⟨c.toStr, rfl, h1, h2, rfl⟩))))
        · refine Or.inr ?_
          simp [removeTrace]
      | some m =>
        match h3 : B (Op.removeHost c.toStr) with
        | some u =>
          rw [removeRoutes_cons_hostFail h1 h2 h3] at h
          cases h
          refine ⟨by simp, ?_, ⟨Op.removeHost c.toStr, by simp, ?_⟩, ?_⟩
          · intro o ho
            simp only [List.dropLast_single, List.dropLast_cons₂] at ho
            rcases List.mem_cons.1 ho with h | h
            · exact h ▸ h1
            · simp at h
          · exact Or.inr (Or.inr (Or.inr (Or.inr (Or.inr ⟨c.toStr, u, rfl, h3, rfl⟩))))
          · exact Or.inl ⟨Op.removeHost c.toStr, by simp, by rw [h3]; simp⟩
        | none =>
          rw [removeRoutes_cons_ok h1 h2 h3] at h
          rcases hr : removeRoutes t B rest with ⟨t3, ops3, res3⟩
          rw [hr] at h
          simp only [Prod.mk.injEq] at h
          obtain ⟨ht, hops, hres⟩ := h
          obtain ⟨hne, hdrop, ⟨o, hlast, hshape⟩, hor⟩ :=
            removeRoutes_fail t B rest t3 ops3 e (by rw [hr, hres])
          subst hops
          match ops3, hne with
          | o3 :: ops3', _ =>
            refine ⟨by simp, ?_, ⟨o, ?_, hshape⟩, ?_⟩
            · intro x hx
              rw [show (Op.removeCloud c.toStr :: Op.removeHost c.toStr :: o3 :: ops3').dropLast
                  = Op.removeCloud c.toStr :: Op.removeHost c.toStr :: (o3 :: ops3').dropLast
                  from rfl] at hx
              rcases List.mem_cons.1 hx with h | h
              · exact h ▸ h1
              · rcases List.mem_cons.1 h with h | h
                · exact h ▸ h3
                · exact hdrop x h
            · rw [List.getLast?_cons_cons, List.getLast?_cons_cons]
              exact hlast
            · rcases hor with ⟨x, hx, hBx⟩ | hlen
              · exact Or.inl ⟨x, by simp [hx], hBx⟩
              · refine Or.inr ?_
                simp only [removeTrace, List.length_cons] at hlen ⊢
                omega

/-- How a reconciliation runs: either the add phase fails and its trace is
the whole trace, or the add phase succeeds and the remove phase contributes
the rest.  The tracker is returned unchanged either way. -/
theorem handleUpdate_cases (t : AWSVPCTracker) (B : Backend) (p c : List CIDR) :
    (∃ e tr, handleUpdate t B p c = (t, tr, some e) ∧
      addRoutes t B (removeCommon p c).2 = (t, tr, some e)) ∨
    (∃ ops1 ops2 res,
      addRoutes t B (removeCommon p c).2 = (t, ops1, none) ∧
      removeRoutes t B (removeCommon p c).1 = (t, ops2, res) ∧
      handleUpdate t B p c = (t, ops1 ++ ops2, res)) := by
  rcases ha : addRoutes t B (removeCommon p c).2 with ⟨t1, ops1, res1⟩
  have ht1 : t1 = t := by
    have := addRoutes_tracker t B (removeCommon p c).2
    rw [ha] at this
    exact this
  subst ht1
  match res1, ha with
  | some e, ha =>
    left
    exact ⟨e, ops1, by simp [handleUpdate, ha], rfl⟩
  | none, ha =>
    right
    rcases hrm : removeRoutes t1 B (removeCommon p c).1 with ⟨t2, ops2, res2⟩
    have ht2 : t2 = t1 := by
      have := removeRoutes_tracker t1 B (removeCommon p c).1
      rw [hrm] at this
      exact this
    subst ht2
    exact ⟨ops1, ops2, res2, rfl, rfl, by simp [handleUpdate, ha, hrm]⟩

theorem handleUpdate_tracker (t : AWSVPCTracker) (B : Backend) (p c : List CIDR) :
    (handleUpdate t B p c).1 = t := by
  rcases handleUpdate_cases t B p c with ⟨e, tr, h, _⟩ | ⟨ops1, ops2, res, _, _, h⟩ <;>
    rw [h]

theorem handleUpdate_success {t : AWSVPCTracker} {B : Backend} {p c : List CIDR}
    {t' : AWSVPCTracker} {tr : List Op}
    (h : handleUpdate t B p c = (t', tr, none)) :
    tr = canonTrace p c ∧ ∀ o ∈ tr, B o = none := by
  rcases handleUpdate_cases t B p c with ⟨e, tr', hh, _⟩ |
      ⟨ops1, ops2, res, ha, hrm, hh⟩
  · rw [h] at hh
    simp at hh
  · rw [h] at hh
    simp only [Prod.mk.injEq] at hh
    obtain ⟨-, htr, hres⟩ := hh
    subst hres
    obtain ⟨h1, hall1⟩ := addRoutes_success t B _ _ _ ha
    obtain ⟨h2, hall2⟩ := removeRoutes_success t B _ _ _ hrm
    constructor
    · rw [htr, h1, h2, canonTrace]
    · intro o ho
      rw [htr] at ho
      rcases List.mem_append.1 ho with hm | hm
      · exact hall1 o hm
      · exact hall2 o hm

theorem handleUpdate_take (t : AWSVPCTracker) (B : Backend) (p c : List CIDR) :
    ∃ k, k ≤ (canonTrace p c).length ∧
      (handleUpdate t B p c).2.1 = (canonTrace p c).take k := by
  rcases handleUpdate_cases t B p c with ⟨e, tr, hh, ha⟩ |
      ⟨ops1, ops2, res, ha, hrm, hh⟩
  · obtain ⟨k, hk, hops⟩ := addRoutes_take t B (removeCommon p c).2
    rw [ha] at hops
    refine ⟨k, ?_, ?_⟩
    · calc k ≤ (addTrace (removeCommon p c).2).length := hk
        _ ≤ (canonTrace p c).length := by simp [canonTrace]
    · rw [hh, canonTrace, List.take_append_of_le_length hk]
      exact hops
  · obtain ⟨h1, -⟩ := addRoutes_success t B _ _ _ ha
    obtain ⟨k, hk, hops⟩ := removeRoutes_take t B (removeCommon p c).1
    rw [hrm] at hops
    dsimp only at hops
    refine ⟨(addTrace (removeCommon p c).2).length + k, ?_, ?_⟩
    · simp only [canonTrace, List.length_append]
      omega
    · rw [hh]
      dsimp only
      rw [canonTrace, List.take_append, h1, hops]

theorem handleUpdate_fail {t : AWSVPCTracker} {B : Backend} {p c : List CIDR}
    {t' : AWSVPCTracker} {tr : List Op} {e : String}
    (h : handleUpdate t B p c = (t', tr, some e)) :
    (∃ o, tr.getLast? = some o ∧ FailureShape B o e) ∧
    ((∃ o ∈ tr, B o ≠ none) ∨ tr.length < (canonTrace p c).length) ∧
    (addRoutes t B (removeCommon p c).2 = (t, tr, some e) ∨
      ∃ rops, rops ≠ [] ∧ tr = addTrace (removeCommon p c).2 ++ rops) := by
  rcases handleUpdate_cases t B p c with ⟨e', tr', hh, ha⟩ |
      ⟨ops1, ops2, res, ha, hrm, hh⟩
  · rw [h] at hh
    simp only [Prod.mk.injEq, Option.some.injEq] at hh
    obtain ⟨-, htr, he⟩ := hh
    subst htr
    subst he
    obtain ⟨hne, hdrop, hlastShape, hor⟩ := addRoutes_fail t B _ _ _ _ ha
    refine ⟨hlastShape, ?_, Or.inl ha⟩
    rcases hor with hL | hR
    · exact Or.inl hL
    · refine Or.inr (lt_of_lt_of_le hR ?_)
      simp [canonTrace]
  · rw [h] at hh
    simp only [Prod.mk.injEq] at hh
    obtain ⟨-, htr, hres⟩ := hh
    subst hres
    obtain ⟨h1, -⟩ := addRoutes_success t B _ _ _ ha
    obtain ⟨hne, hdrop, ⟨o, hlast, hshape⟩, hor⟩ := removeRoutes_fail t B _ _ _ _ hrm
    refine ⟨⟨o, ?_, hshape⟩, ?_, Or.inr ⟨ops2, hne, by rw [htr, h1]⟩⟩
    · rw [htr, List.getLast?_append_of_ne_nil _ hne]
      exact hlast
    · rcases hor with ⟨x, hx, hBx⟩ | hR
      · exact Or.inl ⟨x, by rw [htr]; exact List.mem_append_right _ hx, hBx⟩
      · refine Or.inr ?_
        rw [htr, canonTrace, h1]
        simp only [List.length_append]
        omega

/-! ### Applying traces to the modelled backend tables -/

theorem applyTrace_append (st : Finset String × Finset String) (l m : List Op) :
    applyTrace st (l ++ m) = applyTrace (applyTrace st l) m := by
  simp [applyTrace, List.foldl_append]

theorem strsOf_cons (c : CIDR) (l : List CIDR) :
    strsOf (c :: l) = insert c.toStr (strsOf l) := by
  simp [strsOf]

theorem mem_strsOf {s : String} {l : List CIDR} :
    s ∈ strsOf l ↔ ∃ x ∈ l, x.toStr = s := by
  simp [strsOf]

theorem mem_diffL {x : CIDR} {A B : List CIDR} :
    x ∈ diffL A B ↔ x ∈ A ∧ x ∉ B := by
  simp [diffL]

theorem applyTrace_addTrace (st : Finset String × Finset String) :
    ∀ cs, applyTrace st (addTrace cs) = (st.1 ∪ strsOf cs, st.2 ∪ strsOf cs)
  | [] => by simp [applyTrace, addTrace, strsOf]
  | c :: rest => by
    have ih := applyTrace_addTrace (insert c.toStr st.1, insert c.toStr st.2) rest
    rw [addTrace]
    show applyTrace (insert c.toStr st.1, insert c.toStr st.2) (addTrace rest) = _
    rw [ih, strsOf_cons]
    simp [Finset.insert_union, Finset.union_insert]

theorem applyTrace_removeTrace (st : Finset String × Finset String) :
    ∀ cs, applyTrace st (removeTrace cs) = (st.1 \ strsOf cs, st.2 \ strsOf cs)
  | [] => by simp [applyTrace, removeTrace, strsOf]
  | c :: rest => by
    have ih := applyTrace_removeTrace (st.1.erase c.toStr, st.2.erase c.toStr) rest
    rw [removeTrace]
    show applyTrace (st.1.erase c.toStr, st.2.erase c.toStr) (removeTrace rest) = _
    rw [ih, strsOf_cons]
    refine Prod.ext ?_ ?_ <;>
      · dsimp only
        ext z
        simp only [Finset.mem_sdiff, Finset.mem_erase, Finset.mem_insert]
        tauto

/-- The set-level effect of a successful reconciliation, given injectivity
of the canonical string form on valid ranges. -/
theorem reconcile_sets {prev curr : List CIDR}
    (hvp : ∀ x ∈ prev, x.Valid) (hvc : ∀ x ∈ curr, x.Valid) :
    (strsOf prev ∪ strsOf (diffL curr prev)) \ strsOf (diffL prev curr) =
      strsOf curr := by
  ext s
  simp only [Finset.mem_sdiff, Finset.mem_union, mem_strsOf, mem_diffL]
  constructor
  · rintro ⟨⟨x, hx, hs⟩ | ⟨x, ⟨hx, -⟩, hs⟩, hnot⟩
    · by_cases hxc : x ∈ curr
      · exact ⟨x, hxc, hs⟩
      · exact absurd ⟨x, ⟨hx, hxc⟩, hs⟩ hnot
    · exact ⟨x, hx, hs⟩
  · rintro ⟨x, hx, hs⟩
    constructor
    · by_cases hxp : x ∈ prev
      · exact Or.inl ⟨x, hxp, hs⟩
      · exact Or.inr ⟨x, ⟨hx, hxp⟩, hs⟩
    · rintro ⟨y, ⟨hyp, hyc⟩, hys⟩
      have : y = x := toStr_injOn (hvp y hyp) (hvc x hx) (by rw [hys, hs])
      exact hyc (this ▸ hx)

/-! ### Which strings the parser accepts -/

/-- A nonempty run of decimal digits reading as the value `v`. -/
def DigitStr (ds : List Char) (v : Nat) : Prop :=
  ds ≠ [] ∧ (∀ c ∈ ds, '0' ≤ c ∧ c ≤ '9') ∧ valAcc 0 ds = v

/-- Follows the spec's words: the textual form of an IPv4 network — four
dot-separated decimal fields, each of value at most 255. -/
def ValidIPv4S (l : List Char) : Prop :=
  ∃ f1 f2 f3 f4 v1 v2 v3 v4,
    l = f1 ++ '.' :: (f2 ++ '.' :: (f3 ++ '.' :: f4)) ∧
    DigitStr f1 v1 ∧ v1 ≤ 255 ∧ DigitStr f2 v2 ∧ v2 ≤ 255 ∧
    DigitStr f3 v3 ∧ v3 ≤ 255 ∧ DigitStr f4 v4 ∧ v4 ≤ 255

theorem parseOctet_digitStr {ds : List Char} {v : Nat} (h : DigitStr ds v)
    (hv : v ≤ 255) (r : List Char) (hr : NoDigitHead r) :
    parseOctet (ds ++ r) = some (v, r) := by
  obtain ⟨hne, hd, hval⟩ := h
  have := parseOctet_reads ds r hd hne (by omega) hr
  rwa [hval] at this

theorem parseIPv4_fields {f1 f2 f3 f4 : List Char} {v1 v2 v3 v4 : Nat}
    (h1 : DigitStr f1 v1) (hv1 : v1 ≤ 255) (h2 : DigitStr f2 v2) (hv2 : v2 ≤ 255)
    (h3 : DigitStr f3 v3) (hv3 : v3 ≤ 255) (h4 : DigitStr f4 v4) (hv4 : v4 ≤ 255) :
    parseIPv4 (f1 ++ '.' :: (f2 ++ '.' :: (f3 ++ '.' :: f4))) =
      some (v1 * 16777216 + v2 * 65536 + v3 * 256 + v4) := by
  rw [parseIPv4]
  rw [parseOctet_digitStr h1 hv1 _ (noDigitHead_dot _)]
  simp only [Option.bind_eq_bind, Option.some_bind, expectDot, if_true]
  rw [parseOctet_digitStr h2 hv2 _ (noDigitHead_dot _)]
  simp only [Option.some_bind, expectDot, if_true]
  rw [parseOctet_digitStr h3 hv3 _ (noDigitHead_dot _)]
  simp only [Option.some_bind, expectDot, if_true]
  rw [show f4 = f4 ++ [] from (List.append_nil _).symm,
    parseOctet_digitStr h4 hv4 [] noDigitHead_nil]
  simp only [Option.some_bind]

/-- Every character of a valid IPv4 literal is a decimal digit or a dot. -/
theorem validIPv4S_chars {l : List Char} (h : ValidIPv4S l) :
    ∀ c ∈ l, ('0' ≤ c ∧ c ≤ '9') ∨ c = '.' := by
  obtain ⟨f1, f2, f3, f4, v1, v2, v3, v4, hl, h1, -, h2, -, h3, -, h4, -⟩ := h
  intro c hc
  rw [hl] at hc
  simp only [List.mem_append, List.mem_cons] at hc
  rcases hc with hm | h | hm | h | hm | h | hm
  · exact Or.inl (h1.2.1 _ hm)
  · exact Or.inr h
  · exact Or.inl (h2.2.1 _ hm)
  · exact Or.inr h
  · exact Or.inl (h3.2.1 _ hm)
  · exact Or.inr h
  · exact Or.inl (h4.2.1 _ hm)

/-- Every valid IPv4 literal parses. -/
theorem parseIPv4_of_validS {l : List Char} (h : ValidIPv4S l) :
    ∃ ip, parseIPv4 l = some ip := by
  obtain ⟨f1, f2, f3, f4, v1, v2, v3, v4, hl, h1, hv1, h2, hv2, h3, hv3,
    h4, hv4⟩ := h
  exact ⟨v1 * 16777216 + v2 * 65536 + v3 * 256 + v4,
    by rw [hl]; exact parseIPv4_fields h1 hv1 h2 hv2 h3 hv3 h4 hv4⟩

theorem dtoiAux_inv :
    ∀ (l : List Char) (a v : Nat) (r : List Char), dtoiAux a l = some (v, r) →
      ∃ ds, l = ds ++ r ∧ (∀ c ∈ ds, '0' ≤ c ∧ c ≤ '9') ∧ valAcc a ds = v ∧
        NoDigitHead r
  | [], a, v, r => by
    intro h
    rw [dtoiAux] at h
    cases h
    exact ⟨[], rfl, by simp, rfl, trivial⟩
  | c :: rest, a, v, r => by
    intro h
    rw [dtoiAux] at h
    by_cases hc : '0' ≤ c ∧ c ≤ '9'
    · rw [if_pos hc] at h
      by_cases hcap : 16777215 ≤ a * 10 + (c.toNat - 48)
      · rw [if_pos hcap] at h
        cases h
      · rw [if_neg hcap] at h
        obtain ⟨ds, hl, hd, hval, hr⟩ := dtoiAux_inv rest _ v r h
        refine ⟨c :: ds, by rw [List.cons_append, hl], ?_, ?_, hr⟩
        · intro x hx
          rcases List.mem_cons.1 hx with h | h
          · exact h ▸ hc
          · exact hd x h
        · rw [← hval]
          simp [valAcc]
    · rw [if_neg hc] at h
      cases h
      exact ⟨[], rfl, by simp, rfl, hc⟩

theorem dtoi_inv {l : List Char} {v : Nat} {r : List Char}
    (h : dtoi l = some (v, r)) :
    ∃ ds, l = ds ++ r ∧ ds ≠ [] ∧ (∀ c ∈ ds, '0' ≤ c ∧ c ≤ '9') ∧
      valAcc 0 ds = v ∧ NoDigitHead r := by
  match l, h with
  | c :: rest, h =>
    rw [dtoi] at h
    by_cases hc : '0' ≤ c ∧ c ≤ '9'
    · rw [if_pos hc] at h
      obtain ⟨ds, hl, hd, hval, hr⟩ := dtoiAux_inv (c :: rest) 0 v r h
      refine ⟨ds, hl, ?_, hd, hval, hr⟩
      intro hds
      subst hds
      rw [List.nil_append] at hl
      subst hl
      exact hr hc
    · rw [if_neg hc] at h
      cases h

theorem parseOctet_inv {l : List Char} {v : Nat} {r : List Char}
    (h : parseOctet l = some (v, r)) :
    DigitStr (l.take (l.length - r.length)) v ∧ v ≤ 255 ∧
      l = l.take (l.length - r.length) ++ r ∧ NoDigitHead r := by
  rw [parseOctet] at h
  match hd : dtoi l with
  | none => rw [hd] at h; cases h
  | some (n, r') =>
    rw [hd] at h
    dsimp only at h
    by_cases hn : 255 < n
    · rw [if_pos hn] at h
      cases h
    · rw [if_neg hn] at h
      cases h
      obtain ⟨ds, hl, hne, hdig, hval, hr⟩ := dtoi_inv hd
      have hds : l.take (l.length - r.length) = ds := by
        rw [hl, List.length_append]
        simp [List.take_left']
      rw [hds]
      exact ⟨⟨hne, hdig, hval⟩, by omega, hl, hr⟩

theorem expectDot_inv {r1 r2 : List Char} (h : expectDot r1 = some r2) :
    r1 = '.' :: r2 := by
  match r1, h with
  | c :: r, h =>
    rw [expectDot] at h
    by_cases hc : c = '.'
    · rw [if_pos hc] at h
      cases h
      rw [hc]
    · rw [if_neg hc] at h
      cases h

/-- Every string the IPv4 parser accepts decomposes into four valid
dot-separated decimal fields. -/
theorem parseIPv4_inv {s : List Char} {ip : Nat} (h : parseIPv4 s = some ip) :
    ∃ f1 f2 f3 f4 v1 v2 v3 v4,
      s = f1 ++ '.' :: (f2 ++ '.' :: (f3 ++ '.' :: f4)) ∧
      DigitStr f1 v1 ∧ v1 ≤ 255 ∧ DigitStr f2 v2 ∧ v2 ≤ 255 ∧
      DigitStr f3 v3 ∧ v3 ≤ 255 ∧ DigitStr f4 v4 ∧ v4 ≤ 255 := by
  rw [parseIPv4] at h
  simp only [Option.bind_eq_bind] at h
  match ho1 : parseOctet s with
  | none => rw [ho1] at h; cases h
  | some (n1, r1) =>
    rw [ho1] at h
    simp only [Option.some_bind] at h
    match hd1 : expectDot r1 with
    | none => rw [hd1] at h; cases h
    | some r2 =>
      rw [hd1] at h
      simp only [Option.some_bind] at h
      match ho2 : parseOctet r2 with
      | none => rw [ho2] at h; cases h
      | some (n2, r3) =>
        rw [ho2] at h
        simp only [Option.some_bind] at h
        match hd2 : expectDot r3 with
        | none => rw [hd2] at h; cases h
        | some r4 =>
          rw [hd2] at h
          simp only [Option.some_bind] at h
          match ho3 : parseOctet r4 with
          | none => rw [ho3] at h; cases h
          | some (n3, r5) =>
            rw [ho3] at h
            simp only [Option.some_bind] at h
            match hd3 : expectDot r5 with
            | none => rw [hd3] at h; cases h
            | some r6 =>
              rw [hd3] at h
              simp only [Option.some_bind] at h
              match ho4 : parseOctet r6 with
              | none => rw [ho4] at h; cases h
              | some (n4, r7) =>
                rw [ho4] at h
                simp only [Option.some_bind] at h
                cases r7 with
                | cons x xs => simp at h
                | nil =>
                  obtain ⟨hds1, hn1, hsplit1, -⟩ := parseOctet_inv ho1
                  obtain ⟨hds2, hn2, hsplit2, -⟩ := parseOctet_inv ho2
                  obtain ⟨hds3, hn3, hsplit3, -⟩ := parseOctet_inv ho3
                  obtain ⟨hds4, hn4, hsplit4, -⟩ := parseOctet_inv ho4
                  refine ⟨_, _, _, _, n1, n2, n3, n4, ?_,
                    hds1, hn1, hds2, hn2, hds3, hn3, hds4, hn4⟩
                  rw [hsplit1, expectDot_inv hd1, hsplit2, expectDot_inv hd2,
                    hsplit3, expectDot_inv hd3, hsplit4]
                  simp

/-- Every string the IPv4 parser accepts is a valid IPv4 literal. -/
theorem validS_of_parseIPv4 {s : List Char} {ip : Nat}
    (h : parseIPv4 s = some ip) : ValidIPv4S s := by
  obtain ⟨f1, f2, f3, f4, v1, v2, v3, v4, hs, h1, hv1, h2, hv2, h3, hv3,
    h4, hv4⟩ := parseIPv4_inv h
  exact ⟨f1, f2, f3, f4, v1, v2, v3, v4, hs, h1, hv1, h2, hv2, h3, hv3,
    h4, hv4⟩

/-! ### Which strings the IPv6 parser accepts -/

/-- A hexadecimal digit as `xtoi` accepts them. -/
def IsHexDigit (c : Char) : Prop :=
  ('0' ≤ c ∧ c ≤ '9') ∨ ('a' ≤ c ∧ c ≤ 'f') ∨ ('A' ≤ c ∧ c ≤ 'F')

/-- The value of a hex string folded onto an accumulator, the way `xtoi`
accumulates it. -/
def hexAcc (a : Nat) (ds : List Char) : Nat :=
  ds.foldl (fun n c => n * 16 + (hexDigitVal c).getD 0) a

/-- A nonempty run of hex digits whose value fits one 16-bit group. -/
def GoodGroup (g : List Char) : Prop :=
  g ≠ [] ∧ (∀ c ∈ g, IsHexDigit c) ∧ hexAcc 0 g ≤ 65535

/-- Hex groups joined by single colons. -/
def joinColon : List (List Char) → List Char
  | [] => []
  | [g] => g
  | g :: gs => g ++ ':' :: joinColon gs

/-- What may legally follow the (single) `::` of an IPv6 literal, with `w`
16-bit slots already used before it: nothing, more hex groups, hex groups
ending in an embedded dotted quad, or a dotted quad alone — in each case
leaving at least one free slot for the zeros the `::` stands for. -/
def PostForm (w : Nat) (r : List Char) : Prop :=
  (r = [] ∧ w ≤ 7) ∨
  (∃ post, (∀ g ∈ post, GoodGroup g) ∧ post ≠ [] ∧ r = joinColon post ∧
    w + post.length ≤ 7) ∨
  (∃ post q, (∀ g ∈ post, GoodGroup g) ∧ post ≠ [] ∧ ValidIPv4S q ∧
    r = joinColon post ++ ':' :: q ∧ w + post.length + 2 ≤ 7) ∨
  (∃ q, ValidIPv4S q ∧ r = q ∧ w + 2 ≤ 7)

/-- The suffix forms of an IPv6 literal at a group boundary: `u` 16-bit
slots already used, `e` whether a `::` was already seen.  Without an
ellipsis anywhere the eight slots must come out exactly; with one, at
least one slot must be left for its zeros.  An embedded dotted quad takes
the last two slots. -/
def V6Flat (u : Nat) (e : Bool) (s : List Char) : Prop :=
  (∃ gs, (∀ g ∈ gs, GoodGroup g) ∧ gs ≠ [] ∧ s = joinColon gs ∧
    (e = false → u + gs.length = 8) ∧ (e = true → u + gs.length ≤ 7)) ∨
  (∃ gs q, (∀ g ∈ gs, GoodGroup g) ∧ gs ≠ [] ∧ ValidIPv4S q ∧
    s = joinColon gs ++ ':' :: q ∧
    (e = false → u + gs.length = 6) ∧ (e = true → u + gs.length + 2 ≤ 7)) ∨
  (e = false ∧ ∃ gs restS, (∀ g ∈ gs, GoodGroup g) ∧ gs ≠ [] ∧
    s = joinColon gs ++ ':' :: ':' :: restS ∧
    PostForm (u + gs.length) restS) ∨
  (∃ q, ValidIPv4S q ∧ s = q ∧ (e = false → u = 6) ∧ (e = true → u + 2 ≤ 7))

/-- Follows the spec's words: the textual form of an IPv6 network as the
stdlib accepts it — 16-bit hex groups joined by colons, at most one `::`
standing for the missing zero groups, optionally ending in an embedded
dotted quad, eight 16-bit slots in all. -/
def ValidIPv6S (s : List Char) : Prop :=
  (∃ rest, s = ':' :: ':' :: rest ∧ PostForm 0 rest) ∨ V6Flat 0 false s

/-- Follows the spec's words: a syntactically valid network/prefix pair —
an IPv4 network and a decimal prefix length of at most 32, or an IPv6
network and a decimal prefix length of at most 128, separated by a slash. -/
def ValidCIDRString (s : String) : Prop :=
  ∃ addr mask vm,
    s.data = addr ++ '/' :: mask ∧ DigitStr mask vm ∧
    ((ValidIPv4S addr ∧ vm ≤ 32) ∨ (ValidIPv6S addr ∧ vm ≤ 128))

/-- The first character of the remainder, if any, is not a hex digit. -/
def NoHexHead : List Char → Prop
  | [] => True
  | c :: _ => ¬ IsHexDigit c

theorem noHexHead_nil : NoHexHead ([] : List Char) := trivial

theorem noHexHead_colon (l : List Char) : NoHexHead (':' :: l) := by
  show ¬ IsHexDigit ':'
  unfold IsHexDigit
  decide

theorem noHexHead_dot (l : List Char) : NoHexHead ('.' :: l) := by
  show ¬ IsHexDigit '.'
  unfold IsHexDigit
  decide

theorem isHexDigit_of_digit {c : Char} (h : '0' ≤ c ∧ c ≤ '9') :
    IsHexDigit c := Or.inl h

theorem hexDigitVal_isSome {c : Char} (h : IsHexDigit c) :
    ∃ d, hexDigitVal c = some d := by
  unfold hexDigitVal
  rcases h with h | h | h
  · exact ⟨_, by rw [if_pos h]⟩
  · by_cases h1 : '0' ≤ c ∧ c ≤ '9'
    · exact ⟨_, by rw [if_pos h1]⟩
    · exact ⟨_, by rw [if_neg h1, if_pos h]⟩
  · by_cases h1 : '0' ≤ c ∧ c ≤ '9'
    · exact ⟨_, by rw [if_pos h1]⟩
    · by_cases h2 : 'a' ≤ c ∧ c ≤ 'f'
      · exact ⟨_, by rw [if_neg h1, if_pos h2]⟩
      · exact ⟨_, by rw [if_neg h1, if_neg h2, if_pos h]⟩

theorem hexDigitVal_none {c : Char} (h : ¬ IsHexDigit c) :
    hexDigitVal c = none := by
  unfold IsHexDigit at h
  unfold hexDigitVal
  rw [if_neg (fun hh => h (Or.inl hh)),
    if_neg (fun hh => h (Or.inr (Or.inl hh))),
    if_neg (fun hh => h (Or.inr (Or.inr hh)))]

theorem isHexDigit_of_some {c : Char} {d : Nat} (h : hexDigitVal c = some d) :
    IsHexDigit c := by
  unfold hexDigitVal at h
  unfold IsHexDigit
  by_cases h1 : '0' ≤ c ∧ c ≤ '9'
  · exact Or.inl h1
  · rw [if_neg h1] at h
    by_cases h2 : 'a' ≤ c ∧ c ≤ 'f'
    · exact Or.inr (Or.inl h2)
    · rw [if_neg h2] at h
      by_cases h3 : 'A' ≤ c ∧ c ≤ 'F'
      · exact Or.inr (Or.inr h3)
      · rw [if_neg h3] at h
        cases h

theorem hexDigitVal_digit {c : Char} (h : '0' ≤ c ∧ c ≤ '9') :
    hexDigitVal c = some (c.toNat - 48) := by
  unfold hexDigitVal
  rw [if_pos h]

theorem hexAcc_append (a : Nat) (l m : List Char) :
    hexAcc a (l ++ m) = hexAcc (hexAcc a l) m := by
  simp [hexAcc, List.foldl_append]

theorem le_hexAcc : ∀ (ds : List Char) (a : Nat), a ≤ hexAcc a ds
  | [], a => le_refl a
  | c :: ds, a => by
    have := le_hexAcc ds (a * 16 + (hexDigitVal c).getD 0)
    simp only [hexAcc, List.foldl_cons] at this ⊢
    omega

theorem xtoiAux_reads :
    ∀ (ds : List Char) (a : Nat) (r : List Char),
      (∀ c ∈ ds, IsHexDigit c) → hexAcc a ds < 16777215 → NoHexHead r →
      xtoiAux a (ds ++ r) = some (hexAcc a ds, r)
  | [], a, r => by
    intro _ hv hr
    match r with
    | [] => simp [xtoiAux, hexAcc]
    | c :: r' =>
      have hc : ¬ IsHexDigit c := hr
      simp only [List.nil_append, xtoiAux, hexDigitVal_none hc, hexAcc,
        List.foldl_nil]
  | d :: ds, a, r => by
    intro hd hv hr
    have hdig : IsHexDigit d := hd d (List.mem_cons_self d ds)
    obtain ⟨v, hval⟩ := hexDigitVal_isSome hdig
    have hstep : hexAcc a (d :: ds) = hexAcc (a * 16 + v) ds := by
      simp [hexAcc, hval]
    have hle : a * 16 + v ≤ hexAcc a (d :: ds) := by
      rw [hstep]
      exact le_hexAcc ds _
    rw [List.cons_append, xtoiAux, hval]
    dsimp only
    rw [if_neg (by omega)]
    rw [xtoiAux_reads ds _ r (fun c hc => hd c (List.mem_cons_of_mem d hc))
      (by rw [← hstep]; exact hv) hr]
    rw [hstep]

theorem xtoi_reads (ds r : List Char) (hd : ∀ c ∈ ds, IsHexDigit c)
    (hne : ds ≠ []) (hv : hexAcc 0 ds < 16777215) (hr : NoHexHead r) :
    xtoi (ds ++ r) = some (hexAcc 0 ds, r) := by
  match ds, hne with
  | d :: ds', _ =>
    have hdig : IsHexDigit d := hd d (List.mem_cons_self d ds')
    obtain ⟨v, hval⟩ := hexDigitVal_isSome hdig
    rw [List.cons_append, xtoi, hval]
    dsimp only
    rw [← List.cons_append]
    exact xtoiAux_reads (d :: ds') 0 r hd hv hr

theorem xtoiAux_inv :
    ∀ (l : List Char) (a v : Nat) (r : List Char), xtoiAux a l = some (v, r) →
      ∃ ds, l = ds ++ r ∧ (∀ c ∈ ds, IsHexDigit c) ∧ hexAcc a ds = v ∧
        NoHexHead r
  | [], a, v, r => by
    intro h
    rw [xtoiAux] at h
    cases h
    exact ⟨[], rfl, by simp, rfl, trivial⟩
  | c :: rest, a, v, r => by
    intro h
    rw [xtoiAux] at h
    match hdv : hexDigitVal c with
    | none =>
      rw [hdv] at h
      cases h
      refine ⟨[], rfl, by simp, rfl, ?_⟩
      show ¬ IsHexDigit c
      intro hhex
      obtain ⟨d, hd⟩ := hexDigitVal_isSome hhex
      rw [hdv] at hd
      cases hd
    | some d =>
      rw [hdv] at h
      dsimp only at h
      by_cases hcap : 16777215 ≤ a * 16 + d
      · rw [if_pos hcap] at h
        cases h
      · rw [if_neg hcap] at h
        obtain ⟨ds, hl, hdg, hval, hr⟩ := xtoiAux_inv rest _ v r h
        refine ⟨c :: ds, by rw [List.cons_append, hl], ?_, ?_, hr⟩
        · intro x hx
          rcases List.mem_cons.1 hx with hx | hx
          · subst hx
            exact isHexDigit_of_some hdv
          · exact hdg x hx
        · rw [← hval]
          simp [hexAcc, hdv]

theorem xtoi_inv {l : List Char} {v : Nat} {r : List Char}
    (h : xtoi l = some (v, r)) :
    ∃ ds, l = ds ++ r ∧ ds ≠ [] ∧ (∀ c ∈ ds, IsHexDigit c) ∧
      hexAcc 0 ds = v ∧ NoHexHead r := by
  match l, h with
  | c :: rest, h =>
    rw [xtoi] at h
    match hdv : hexDigitVal c with
    | none => rw [hdv] at h; cases h
    | some d =>
      rw [hdv] at h
      dsimp only at h
      obtain ⟨ds, hl, hdg, hval, hr⟩ := xtoiAux_inv (c :: rest) 0 v r h
      refine ⟨ds, hl, ?_, hdg, hval, hr⟩
      intro hds
      subst hds
      rw [List.nil_append] at hl
      subst hl
      have hnot : ¬ IsHexDigit c := hr
      exact hnot (isHexDigit_of_some hdv)

/-- Reading decimal digits as hex never exceeds the square-plus-double of
their decimal value: the invariant that lets the first field of an
embedded dotted quad pass `xtoi`'s 16-bit check. -/
theorem hexAcc_le_of_valAcc :
    ∀ (ds : List Char), (∀ c ∈ ds, '0' ≤ c ∧ c ≤ '9') →
      ∀ a b, b ≤ a * a + 2 * a →
      hexAcc b ds ≤ valAcc a ds * valAcc a ds + 2 * valAcc a ds
  | [], _, a, b => by
    intro hb
    simpa [hexAcc, valAcc] using hb
  | c :: ds, hd, a, b => by
    intro hb
    have hdig := hd c (List.mem_cons_self c ds)
    have hstep : hexAcc b (c :: ds) = hexAcc (b * 16 + (c.toNat - 48)) ds := by
      simp [hexAcc, hexDigitVal_digit hdig]
    have hstepv : valAcc a (c :: ds) = valAcc (a * 10 + (c.toNat - 48)) ds := by
      simp [valAcc]
    rw [hstep, hstepv]
    refine hexAcc_le_of_valAcc ds
      (fun x hx => hd x (List.mem_cons_of_mem c hx)) _ _ ?_
    have haa : a ≤ a * a := by
      cases a with
      | zero => simp
      | succ k => exact Nat.le_mul_of_pos_left _ (Nat.succ_pos k)
    have hexp : (a * 10 + (c.toNat - 48)) * (a * 10 + (c.toNat - 48)) =
        100 * (a * a) + 20 * (a * (c.toNat - 48)) +
          (c.toNat - 48) * (c.toNat - 48) := by ring
    rw [hexp]
    omega

theorem hexAcc_le_65535_of_field {f : List Char} {v : Nat}
    (h : DigitStr f v) (hv : v ≤ 255) : hexAcc 0 f ≤ 65535 := by
  obtain ⟨-, hd, hval⟩ := h
  have := hexAcc_le_of_valAcc f hd 0 0 (by simp)
  rw [hval] at this
  have hsq : v * v ≤ 255 * 255 := Nat.mul_le_mul hv hv
  omega

/-! ### One loop round at a time -/

/-- The two bytes a 16-bit group contributes. -/
def groupBytes (g : List Char) : List Nat :=
  [hexAcc 0 g / 256 % 256, hexAcc 0 g % 256]

/-- The bytes of a list of groups. -/
def flatGroups : List (List Char) → List Nat
  | [] => []
  | g :: gs => groupBytes g ++ flatGroups gs

theorem flatGroups_length : ∀ gs : List (List Char),
    (flatGroups gs).length = 2 * gs.length
  | [] => rfl
  | g :: gs => by
    simp [flatGroups, groupBytes, flatGroups_length gs]
    omega

theorem loop_lastGroup {bytes : List Nat} {ell : Option Nat} {g : List Char}
    (hlen : bytes.length < 16) (hg : GoodGroup g) :
    parseIPv6Loop bytes ell g = finishIPv6 (bytes ++ groupBytes g) ell := by
  obtain ⟨hne, hd, hv⟩ := hg
  have hx : xtoi g = some (hexAcc 0 g, []) := by
    rw [show g = g ++ [] from (List.append_nil _).symm]
    rw [xtoi_reads g [] hd hne (by omega) noHexHead_nil]
    simp
  unfold parseIPv6Loop
  rw [if_neg (by omega)]
  split
  · next heq => rw [hx] at heq; cases heq
  · next n c heq =>
    rw [hx] at heq
    cases heq
    rw [if_neg (by omega)]
    rfl

theorem loop_cont {bytes : List Nat} {ell : Option Nat} {g : List Char}
    {c2 : Char} {rest2 : List Char}
    (hlen : bytes.length < 16) (hg : GoodGroup g) (hc2 : c2 ≠ ':') :
    parseIPv6Loop bytes ell (g ++ ':' :: c2 :: rest2) =
      parseIPv6Loop (bytes ++ groupBytes g) ell (c2 :: rest2) := by
  obtain ⟨hne, hd, hv⟩ := hg
  have hx : xtoi (g ++ ':' :: c2 :: rest2) =
      some (hexAcc 0 g, ':' :: c2 :: rest2) :=
    xtoi_reads g (':' :: c2 :: rest2) hd hne (by omega) (noHexHead_colon _)
  conv_lhs => rw [parseIPv6Loop]
  rw [if_neg (by omega)]
  split
  · next heq => rw [hx] at heq; cases heq
  · next n c heq =>
    rw [hx] at heq
    cases heq
    rw [if_neg (by omega)]
    dsimp only
    rw [if_neg (by decide : ¬(':' = '.')), if_pos rfl, if_neg hc2]
    rfl

theorem loop_ell {bytes : List Nat} {g : List Char} {rest2 : List Char}
    (hlen : bytes.length < 16) (hg : GoodGroup g) (hr2 : rest2 ≠ []) :
    parseIPv6Loop bytes none (g ++ ':' :: ':' :: rest2) =
      parseIPv6Loop (bytes ++ groupBytes g) (some (bytes.length + 2)) rest2 := by
  obtain ⟨hne, hd, hv⟩ := hg
  have hx : xtoi (g ++ ':' :: ':' :: rest2) =
      some (hexAcc 0 g, ':' :: ':' :: rest2) :=
    xtoi_reads g (':' :: ':' :: rest2) hd hne (by omega) (noHexHead_colon _)
  conv_lhs => rw [parseIPv6Loop]
  rw [if_neg (by omega)]
  split
  · next heq => rw [hx] at heq; cases heq
  · next n c heq =>
    rw [hx] at heq
    cases heq
    rw [if_neg (by omega)]
    dsimp only
    rw [if_neg (by decide : ¬(':' = '.')), if_pos rfl, if_pos rfl,
      if_neg (by simp), if_neg hr2]
    rfl

theorem loop_ellEnd {bytes : List Nat} {g : List Char}
    (hlen : bytes.length < 16) (hg : GoodGroup g) :
    parseIPv6Loop bytes none (g ++ [':', ':']) =
      finishIPv6 (bytes ++ groupBytes g) (some (bytes.length + 2)) := by
  obtain ⟨hne, hd, hv⟩ := hg
  have hx : xtoi (g ++ [':', ':']) = some (hexAcc 0 g, [':', ':']) :=
    xtoi_reads g [':', ':'] hd hne (by omega) (noHexHead_colon _)
  conv_lhs => rw [parseIPv6Loop]
  rw [if_neg (by omega)]
  split
  · next heq => rw [hx] at heq; cases heq
  · next n c heq =>
    rw [hx] at heq
    cases heq
    rw [if_neg (by omega)]
    dsimp only
    rw [if_neg (by decide : ¬(':' = '.')), if_pos rfl, if_pos rfl,
      if_neg (by simp), if_pos rfl]
    rfl

/-- The four bytes of an embedded dotted quad. -/
def quadBytes (ip4 : Nat) : List Nat :=
  [ip4 / 16777216 % 256, ip4 / 65536 % 256, ip4 / 256 % 256, ip4 % 256]

theorem loop_quad {bytes : List Nat} {ell : Option Nat} {s : List Char}
    {ip4 : Nat} (hlen : bytes.length < 16)
    (hell : ell = none → bytes.length = 12) (hroom : bytes.length + 4 ≤ 16)
    (hv4 : ValidIPv4S s) (hp4 : parseIPv4 s = some ip4) :
    parseIPv6Loop bytes ell s = finishIPv6 (bytes ++ quadBytes ip4) ell := by
  obtain ⟨f1, f2, f3, f4, v1, v2, v3, v4, hs, h1, hv1, -⟩ := hv4
  have hdig := h1.2.1
  have hx : xtoi s =
      some (hexAcc 0 f1, '.' :: (f2 ++ '.' :: (f3 ++ '.' :: f4))) := by
    rw [hs]
    exact xtoi_reads f1 _ (fun c hc => isHexDigit_of_digit (hdig c hc)) h1.1
      (by have := hexAcc_le_65535_of_field h1 hv1; omega) (noHexHead_dot _)
  have hbound : hexAcc 0 f1 ≤ 65535 := hexAcc_le_65535_of_field h1 hv1
  conv_lhs => rw [parseIPv6Loop]
  rw [if_neg (by omega)]
  split
  · next heq => rw [hx] at heq; cases heq
  · next n c heq =>
    rw [hx] at heq
    cases heq
    rw [if_neg (by omega)]
    dsimp only
    rw [if_pos rfl]
    rw [if_neg (by
      rintro ⟨he, hb⟩
      exact hb (hell he))]
    rw [if_neg (by omega), hp4]
    rfl

theorem finishIPv6_some {bytes : List Nat} {e : Nat}
    (h : bytes.length < 16) :
    finishIPv6 bytes (some e) = some (fillEllipsis bytes e) := by
  rw [finishIPv6.eq_def, if_pos h]

theorem finishIPv6_full {bytes : List Nat} (h : bytes.length = 16) :
    finishIPv6 bytes none = some bytes := by
  rw [finishIPv6.eq_def, if_neg (by omega)]

theorem finishIPv6_inv {bytes : List Nat} {ell : Option Nat} {out : List Nat}
    (h : finishIPv6 bytes ell = some out) :
    (bytes.length < 16 ∧ ∃ e, ell = some e) ∨
      (16 ≤ bytes.length ∧ ell = none) := by
  rw [finishIPv6.eq_def] at h
  by_cases hl : bytes.length < 16
  · rw [if_pos hl] at h
    match ell, h with
    | some e, h => exact Or.inl ⟨hl, e, rfl⟩
  · rw [if_neg hl] at h
    match ell, h with
    | none, h => exact Or.inr ⟨by omega, rfl⟩

/-! ### Heads of groups and quads -/

theorem isHexDigit_ne_colon {c : Char} (h : IsHexDigit c) : c ≠ ':' := by
  rintro rfl
  rcases h with h | h | h <;> revert h <;> decide

theorem goodGroup_head {g : List Char} (h : GoodGroup g) :
    ∃ c cs, g = c :: cs ∧ IsHexDigit c := by
  obtain ⟨hne, hd, -⟩ := h
  match g, hne with
  | c :: cs, _ => exact ⟨c, cs, rfl, hd c (by simp)⟩

theorem joinColon_cons {g : List Char} {gs : List (List Char)} (h : gs ≠ []) :
    joinColon (g :: gs) = g ++ ':' :: joinColon gs := by
  match gs, h with
  | g2 :: gs', _ => rfl

theorem joinColon_head {c : Char} {cs : List Char} (gs : List (List Char)) :
    ∃ r, joinColon ((c :: cs) :: gs) = c :: r := by
  match gs with
  | [] => exact ⟨cs, rfl⟩
  | g2 :: gs' => exact ⟨cs ++ ':' :: joinColon (g2 :: gs'), rfl⟩

theorem joinColon_head_of_good {gs : List (List Char)} (hgs : gs ≠ [])
    (hgood : ∀ g ∈ gs, GoodGroup g) :
    ∃ c r, joinColon gs = c :: r ∧ IsHexDigit c := by
  match gs, hgs with
  | g :: gs', _ =>
    obtain ⟨c, cs, hg, hc⟩ := goodGroup_head (hgood g (by simp))
    subst hg
    obtain ⟨r, hr⟩ := joinColon_head gs'
    exact ⟨c, r, hr, hc⟩

theorem validIPv4S_head {q : List Char} (h : ValidIPv4S q) :
    ∃ c r, q = c :: r ∧ ('0' ≤ c ∧ c ≤ '9') := by
  obtain ⟨f1, f2, f3, f4, v1, v2, v3, v4, hq, h1, -, -, -, -, -, -, -⟩ := h
  obtain ⟨hne, hd, -⟩ := h1
  match f1, hne, hq with
  | c :: cs, _, hq =>
    exact ⟨c, cs ++ '.' :: (f2 ++ '.' :: (f3 ++ '.' :: f4)),
      by rw [hq]; rfl, hd c (by simp)⟩

/-! ### The language the loop accepts, in terms of bytes filled -/

/-- What the group loop accepts once the ellipsis was seen, with `p` bytes
filled before its zeros: nothing, more groups, groups then an embedded
dotted quad, or a dotted quad alone — always leaving room for at least one
zero group (the final byte count must stay below 16). -/
def PostSpec (p : Nat) (r : List Char) : Prop :=
  (r = [] ∧ p < 16) ∨
  (∃ post, (∀ g ∈ post, GoodGroup g) ∧ post ≠ [] ∧ r = joinColon post ∧
    p + 2 * post.length < 16) ∨
  (∃ post q, (∀ g ∈ post, GoodGroup g) ∧ post ≠ [] ∧ ValidIPv4S q ∧
    r = joinColon post ++ ':' :: q ∧ p + 2 * post.length + 4 < 16) ∨
  (∃ q, ValidIPv4S q ∧ r = q ∧ p + 4 < 16)

/-- What the group loop accepts from a state with `b` bytes filled and the
ellipsis already seen (`e = true`) or not: groups to the exact end, groups
then an embedded dotted quad, an ellipsis ahead, or a dotted quad alone. -/
def LoopSpec (b : Nat) (e : Bool) (s : List Char) : Prop :=
  (∃ gs, (∀ g ∈ gs, GoodGroup g) ∧ gs ≠ [] ∧ s = joinColon gs ∧
    (e = false → b + 2 * gs.length = 16) ∧
    (e = true → b + 2 * gs.length < 16)) ∨
  (∃ gs q, (∀ g ∈ gs, GoodGroup g) ∧ gs ≠ [] ∧ ValidIPv4S q ∧
    s = joinColon gs ++ ':' :: q ∧
    (e = false → b + 2 * gs.length = 12) ∧
    (e = true → b + 2 * gs.length + 4 < 16)) ∨
  (e = false ∧ ∃ gs restS, (∀ g ∈ gs, GoodGroup g) ∧ gs ≠ [] ∧
    s = joinColon gs ++ ':' :: ':' :: restS ∧
    PostSpec (b + 2 * gs.length) restS) ∨
  (∃ q, ValidIPv4S q ∧ s = q ∧ (e = false → b = 12) ∧ (e = true → b + 4 < 16))

theorem postSpec_of_loopSpec {p : Nat} {r : List Char}
    (h : LoopSpec p true r) : PostSpec p r := by
  rcases h with ⟨gs, hgood, hne, hs, -, hb⟩ | ⟨gs, q, hgood, hne, hq, hs, -, hb⟩ |
    ⟨he, -⟩ | ⟨q, hq, hs, -, hb⟩
  · exact Or.inr (Or.inl ⟨gs, hgood, hne, hs, hb rfl⟩)
  · exact Or.inr (Or.inr (Or.inl ⟨gs, q, hgood, hne, hq, hs, hb rfl⟩))
  · cases he
  · exact Or.inr (Or.inr (Or.inr ⟨q, hq, hs, hb rfl⟩))

theorem loopSpec_of_postSpec {p : Nat} {r : List Char} (hne : r ≠ [])
    (h : PostSpec p r) : LoopSpec p true r := by
  rcases h with ⟨hr, -⟩ | ⟨post, hgood, hpne, hr, hb⟩ |
    ⟨post, q, hgood, hpne, hq, hr, hb⟩ | ⟨q, hq, hr, hb⟩
  · exact absurd hr hne
  · exact Or.inl ⟨post, hgood, hpne, hr,
      fun hh => absurd hh (by decide), fun _ => hb⟩
  · exact Or.inr (Or.inl ⟨post, q, hgood, hpne, hq, hr,
      fun hh => absurd hh (by decide), fun _ => hb⟩)
  · exact Or.inr (Or.inr (Or.inr ⟨q, hq, hr,
      fun hh => absurd hh (by decide), fun _ => hb⟩))

theorem postSpec_iff_postForm {w p : Nat} (hp : p = 2 * w) (r : List Char) :
    PostSpec p r ↔ PostForm w r := by
  subst hp
  constructor
  · rintro (⟨hr, hb⟩ | ⟨post, hgood, hne, hr, hb⟩ |
      ⟨post, q, hgood, hne, hq, hr, hb⟩ | ⟨q, hq, hr, hb⟩)
    · exact Or.inl ⟨hr, by omega⟩
    · exact Or.inr (Or.inl ⟨post, hgood, hne, hr, by omega⟩)
    · exact Or.inr (Or.inr (Or.inl ⟨post, q, hgood, hne, hq, hr, by omega⟩))
    · exact Or.inr (Or.inr (Or.inr ⟨q, hq, hr, by omega⟩))
  · rintro (⟨hr, hb⟩ | ⟨post, hgood, hne, hr, hb⟩ |
      ⟨post, q, hgood, hne, hq, hr, hb⟩ | ⟨q, hq, hr, hb⟩)
    · exact Or.inl ⟨hr, by omega⟩
    · exact Or.inr (Or.inl ⟨post, hgood, hne, hr, by omega⟩)
    · exact Or.inr (Or.inr (Or.inl ⟨post, q, hgood, hne, hq, hr, by omega⟩))
    · exact Or.inr (Or.inr (Or.inr ⟨q, hq, hr, by omega⟩))

theorem loopSpec_iff_v6flat {u b : Nat} (hb : b = 2 * u) (e : Bool)
    (s : List Char) : LoopSpec b e s ↔ V6Flat u e s := by
  subst hb
  constructor
  · rintro (⟨gs, hgood, hne, hs, h0, h1⟩ |
      ⟨gs, q, hgood, hne, hq, hs, h0, h1⟩ |
      ⟨he, gs, restS, hgood, hne, hs, hpost⟩ | ⟨q, hq, hs, h0, h1⟩)
    · exact Or.inl ⟨gs, hgood, hne, hs,
        fun h => by have := h0 h; omega, fun h => by have := h1 h; omega⟩
    · exact Or.inr (Or.inl ⟨gs, q, hgood, hne, hq, hs,
        fun h => by have := h0 h; omega, fun h => by have := h1 h; omega⟩)
    · exact Or.inr (Or.inr (Or.inl ⟨he, gs, restS, hgood, hne, hs,
        (postSpec_iff_postForm (by ring) restS).1 hpost⟩))
    · exact Or.inr (Or.inr (Or.inr ⟨q, hq, hs,
        fun h => by have := h0 h; omega, fun h => by have := h1 h; omega⟩))
  · rintro (⟨gs, hgood, hne, hs, h0, h1⟩ |
      ⟨gs, q, hgood, hne, hq, hs, h0, h1⟩ |
      ⟨he, gs, restS, hgood, hne, hs, hpost⟩ | ⟨q, hq, hs, h0, h1⟩)
    · exact Or.inl ⟨gs, hgood, hne, hs,
        fun h => by have := h0 h; omega, fun h => by have := h1 h; omega⟩
    · exact Or.inr (Or.inl ⟨gs, q, hgood, hne, hq, hs,
        fun h => by have := h0 h; omega, fun h => by have := h1 h; omega⟩)
    · exact Or.inr (Or.inr (Or.inl ⟨he, gs, restS, hgood, hne, hs,
        (postSpec_iff_postForm (by ring) restS).2 hpost⟩))
    · exact Or.inr (Or.inr (Or.inr ⟨q, hq, hs,
        fun h => by have := h0 h; omega, fun h => by have := h1 h; omega⟩))

/-! ### Walking the loop along a run of groups -/

theorem walkPre : ∀ (gs : List (List Char)) (bytes : List Nat)
    (ell : Option Nat) (c2 : Char) (r2 : List Char),
    (∀ g ∈ gs, GoodGroup g) → gs ≠ [] → c2 ≠ ':' →
    bytes.length + 2 * gs.length ≤ 16 →
    parseIPv6Loop bytes ell (joinColon gs ++ ':' :: c2 :: r2) =
      parseIPv6Loop (bytes ++ flatGroups gs) ell (c2 :: r2)
  | [], _, _, _, _ => by
    intro _ hne _ _
    exact absurd rfl hne
  | [g], bytes, ell, c2, r2 => by
    intro hgood _ hc2 hlen
    simp only [List.length_cons, List.length_nil] at hlen
    have hg := hgood g (by simp)
    show parseIPv6Loop bytes ell (g ++ ':' :: c2 :: r2) = _
    rw [loop_cont (by omega) hg hc2]
    simp [flatGroups]
  | g :: g2 :: gs, bytes, ell, c2, r2 => by
    intro hgood _ hc2 hlen
    simp only [List.length_cons] at hlen
    have hg := hgood g (by simp)
    obtain ⟨c0, r0, hj, hc0⟩ := joinColon_head_of_good (by simp)
      (fun x hx => hgood x (List.mem_cons_of_mem g hx))
    have hstep : joinColon (g :: g2 :: gs) ++ ':' :: c2 :: r2 =
        g ++ ':' :: c0 :: (r0 ++ ':' :: c2 :: r2) := by
      rw [joinColon_cons (by simp), hj]
      simp
    rw [hstep, loop_cont (by omega) hg (isHexDigit_ne_colon hc0)]
    have hback : c0 :: (r0 ++ ':' :: c2 :: r2) =
        joinColon (g2 :: gs) ++ ':' :: c2 :: r2 := by
      rw [hj]
      simp
    rw [hback]
    rw [walkPre (g2 :: gs) (bytes ++ groupBytes g) ell c2 r2
      (fun x hx => hgood x (List.mem_cons_of_mem g hx)) (by simp) hc2
      (by simp only [List.length_append, List.length_cons, groupBytes,
        List.length_nil]; omega)]
    simp [flatGroups]

theorem walkEnd : ∀ (gs : List (List Char)) (bytes : List Nat)
    (ell : Option Nat), (∀ g ∈ gs, GoodGroup g) → gs ≠ [] →
    bytes.length + 2 * gs.length ≤ 16 →
    parseIPv6Loop bytes ell (joinColon gs) =
      finishIPv6 (bytes ++ flatGroups gs) ell
  | [], _, _ => by
    intro _ hne _
    exact absurd rfl hne
  | [g], bytes, ell => by
    intro hgood _ hlen
    simp only [List.length_cons, List.length_nil] at hlen
    have hg := hgood g (by simp)
    show parseIPv6Loop bytes ell g = _
    rw [loop_lastGroup (by omega) hg]
    simp [flatGroups]
  | g :: g2 :: gs, bytes, ell => by
    intro hgood _ hlen
    simp only [List.length_cons] at hlen
    have hg := hgood g (by simp)
    obtain ⟨c0, r0, hj, hc0⟩ := joinColon_head_of_good (by simp)
      (fun x hx => hgood x (List.mem_cons_of_mem g hx))
    have hstep : joinColon (g :: g2 :: gs) = g ++ ':' :: c0 :: r0 := by
      rw [joinColon_cons (by simp), hj]
    rw [hstep, loop_cont (by omega) hg (isHexDigit_ne_colon hc0), ← hj]
    rw [walkEnd (g2 :: gs) (bytes ++ groupBytes g) ell
      (fun x hx => hgood x (List.mem_cons_of_mem g hx)) (by simp)
      (by simp only [List.length_append, List.length_cons, groupBytes,
        List.length_nil]; omega)]
    simp [flatGroups]

theorem walkEll : ∀ (gs : List (List Char)) (bytes : List Nat)
    (restS : List Char), (∀ g ∈ gs, GoodGroup g) → gs ≠ [] → restS ≠ [] →
    bytes.length + 2 * gs.length ≤ 16 →
    parseIPv6Loop bytes none (joinColon gs ++ ':' :: ':' :: restS) =
      parseIPv6Loop (bytes ++ flatGroups gs)
        (some (bytes.length + 2 * gs.length)) restS
  | [], _, _ => by
    intro _ hne _ _
    exact absurd rfl hne
  | [g], bytes, restS => by
    intro hgood _ hrne hlen
    simp only [List.length_cons, List.length_nil] at hlen
    have hg := hgood g (by simp)
    show parseIPv6Loop bytes none (g ++ ':' :: ':' :: restS) = _
    rw [loop_ell (by omega) hg hrne]
    simp [flatGroups]
  | g :: g2 :: gs, bytes, restS => by
    intro hgood _ hrne hlen
    simp only [List.length_cons] at hlen
    have hg := hgood g (by simp)
    obtain ⟨c0, r0, hj, hc0⟩ := joinColon_head_of_good (by simp)
      (fun x hx => hgood x (List.mem_cons_of_mem g hx))
    have hstep : joinColon (g :: g2 :: gs) ++ ':' :: ':' :: restS =
        g ++ ':' :: c0 :: (r0 ++ ':' :: ':' :: restS) := by
      rw [joinColon_cons (by simp), hj]
      simp
    rw [hstep, loop_cont (by omega) hg (isHexDigit_ne_colon hc0)]
    have hback : c0 :: (r0 ++ ':' :: ':' :: restS) =
        joinColon (g2 :: gs) ++ ':' :: ':' :: restS := by
      rw [hj]
      simp
    rw [hback]
    rw [walkEll (g2 :: gs) (bytes ++ groupBytes g) restS
      (fun x hx => hgood x (List.mem_cons_of_mem g hx)) (by simp) hrne
      (by simp only [List.length_append, List.length_cons, groupBytes,
        List.length_nil]; omega)]
    have harg1 : bytes ++ groupBytes g ++ flatGroups (g2 :: gs) =
        bytes ++ flatGroups (g :: g2 :: gs) := by simp [flatGroups]
    have harg2 : (bytes ++ groupBytes g).length + 2 * (g2 :: gs).length =
        bytes.length + 2 * (g :: g2 :: gs).length := by
      simp only [List.length_append, List.length_cons, groupBytes,
        List.length_nil]
      omega
    rw [harg1, harg2]

theorem walkEllEnd : ∀ (gs : List (List Char)) (bytes : List Nat),
    (∀ g ∈ gs, GoodGroup g) → gs ≠ [] →
    bytes.length + 2 * gs.length ≤ 16 →
    parseIPv6Loop bytes none (joinColon gs ++ [':', ':']) =
      finishIPv6 (bytes ++ flatGroups gs)
        (some (bytes.length + 2 * gs.length))
  | [], _ => by
    intro _ hne _
    exact absurd rfl hne
  | [g], bytes => by
    intro hgood _ hlen
    simp only [List.length_cons, List.length_nil] at hlen
    have hg := hgood g (by simp)
    show parseIPv6Loop bytes none (g ++ [':', ':']) = _
    rw [loop_ellEnd (by omega) hg]
    simp [flatGroups]
  | g :: g2 :: gs, bytes => by
    intro hgood _ hlen
    simp only [List.length_cons] at hlen
    have hg := hgood g (by simp)
    obtain ⟨c0, r0, hj, hc0⟩ := joinColon_head_of_good (by simp)
      (fun x hx => hgood x (List.mem_cons_of_mem g hx))
    have hstep : joinColon (g :: g2 :: gs) ++ [':', ':'] =
        g ++ ':' :: c0 :: (r0 ++ [':', ':']) := by
      rw [joinColon_cons (by simp), hj]
      simp
    rw [hstep, loop_cont (by omega) hg (isHexDigit_ne_colon hc0)]
    have hback : c0 :: (r0 ++ [':', ':']) =
        joinColon (g2 :: gs) ++ [':', ':'] := by
      rw [hj]
      simp
    rw [hback]
    rw [walkEllEnd (g2 :: gs) (bytes ++ groupBytes g)
      (fun x hx => hgood x (List.mem_cons_of_mem g hx)) (by simp)
      (by simp only [List.length_append, List.length_cons, groupBytes,
        List.length_nil]; omega)]
    have harg1 : bytes ++ groupBytes g ++ flatGroups (g2 :: gs) =
        bytes ++ flatGroups (g :: g2 :: gs) := by simp [flatGroups]
    have harg2 : (bytes ++ groupBytes g).length + 2 * (g2 :: gs).length =
        bytes.length + 2 * (g :: g2 :: gs).length := by
      simp only [List.length_append, List.length_cons, groupBytes,
        List.length_nil]
      omega
    rw [harg1, harg2]

/-! ### Every state the spec allows is accepted -/

theorem loop_complete_true (bytes : List Nat) (p : Nat) (s : List Char)
    (h : LoopSpec bytes.length true s) :
    ∃ out, parseIPv6Loop bytes (some p) s = some out := by
  rcases h with ⟨gs, hgood, hne, hs, -, h1⟩ |
    ⟨gs, q, hgood, hne, hq, hs, -, h1⟩ | ⟨he, -⟩ | ⟨q, hq, hs, -, h1⟩
  · have h1 := h1 rfl
    subst hs
    rw [walkEnd gs bytes (some p) hgood hne (by omega)]
    rw [finishIPv6_some (by simp [flatGroups_length]; omega)]
    exact ⟨_, rfl⟩
  · have h1 := h1 rfl
    subst hs
    obtain ⟨cq, rq, hqe, hdq⟩ := validIPv4S_head hq
    obtain ⟨ip4, hp4⟩ := parseIPv4_of_validS hq
    subst hqe
    rw [walkPre gs bytes (some p) cq rq hgood hne
      (isHexDigit_ne_colon (isHexDigit_of_digit hdq)) (by omega)]
    rw [loop_quad (by simp [flatGroups_length]; omega)
      (fun hh => by cases hh) (by simp [flatGroups_length]; omega) hq hp4]
    rw [finishIPv6_some (by simp [flatGroups_length, quadBytes]; omega)]
    exact ⟨_, rfl⟩
  · cases he
  · have h1 := h1 rfl
    subst hs
    obtain ⟨ip4, hp4⟩ := parseIPv4_of_validS hq
    rw [loop_quad (by omega) (fun hh => by cases hh) (by omega) hq hp4]
    rw [finishIPv6_some (by simp [quadBytes]; omega)]
    exact ⟨_, rfl⟩

theorem loop_complete_false (bytes : List Nat) (s : List Char)
    (h : LoopSpec bytes.length false s) :
    ∃ out, parseIPv6Loop bytes none s = some out := by
  rcases h with ⟨gs, hgood, hne, hs, h0, -⟩ |
    ⟨gs, q, hgood, hne, hq, hs, h0, -⟩ |
    ⟨-, gs, restS, hgood, hne, hs, hpost⟩ | ⟨q, hq, hs, h0, -⟩
  · have h0 := h0 rfl
    subst hs
    rw [walkEnd gs bytes none hgood hne (by omega)]
    rw [finishIPv6_full (by simp [flatGroups_length]; omega)]
    exact ⟨_, rfl⟩
  · have h0 := h0 rfl
    subst hs
    obtain ⟨cq, rq, hqe, hdq⟩ := validIPv4S_head hq
    obtain ⟨ip4, hp4⟩ := parseIPv4_of_validS hq
    subst hqe
    rw [walkPre gs bytes none cq rq hgood hne
      (isHexDigit_ne_colon (isHexDigit_of_digit hdq)) (by omega)]
    rw [loop_quad (by simp [flatGroups_length]; omega)
      (fun _ => by simp [flatGroups_length]; omega)
      (by simp [flatGroups_length]; omega) hq hp4]
    rw [finishIPv6_full (by simp [flatGroups_length, quadBytes]; omega)]
    exact ⟨_, rfl⟩
  · subst hs
    by_cases hre : restS = []
    · subst hre
      have hplt : bytes.length + 2 * gs.length < 16 := by
        rcases hpost with ⟨-, hp⟩ | ⟨post, hgp, hpne, hr, -⟩ |
          ⟨post, q, hgp, hpne, -, hr, -⟩ | ⟨q, hq', hr, -⟩
        · exact hp
        · obtain ⟨c0, r0, hj, -⟩ := joinColon_head_of_good hpne hgp
          rw [hj] at hr
          cases hr
        · obtain ⟨c0, r0, hj, -⟩ := joinColon_head_of_good hpne hgp
          rw [hj] at hr
          cases hr
        · obtain ⟨c0, r0, hj, -⟩ := validIPv4S_head hq'
          rw [hj] at hr
          cases hr
      rw [walkEllEnd gs bytes hgood hne (by omega)]
      rw [finishIPv6_some (by simp [flatGroups_length]; omega)]
      exact ⟨_, rfl⟩
    · have hplt : bytes.length + 2 * gs.length < 16 := by
        rcases hpost with ⟨hr, -⟩ | ⟨post, hgp, hpne, hr, hb⟩ |
          ⟨post, q, hgp, hpne, -, hr, hb⟩ | ⟨q, hq', hr, hb⟩
        · exact absurd hr hre
        · have := List.length_pos.mpr hpne
          omega
        · have := List.length_pos.mpr hpne
          omega
        · omega
      rw [walkEll gs bytes restS hgood hne hre (by omega)]
      refine loop_complete_true (bytes ++ flatGroups gs) _ restS ?_
      have hlen2 : (bytes ++ flatGroups gs).length =
          bytes.length + 2 * gs.length := by simp [flatGroups_length]
      rw [hlen2]
      exact loopSpec_of_postSpec hre hpost
  · have h0 := h0 rfl
    subst hs
    obtain ⟨ip4, hp4⟩ := parseIPv4_of_validS hq
    rw [loop_quad (by omega) (fun _ => h0) (by omega) hq hp4]
    rw [finishIPv6_full (by simp [quadBytes]; omega)]
    exact ⟨_, rfl⟩

/-! ### Every accepted input satisfies the spec -/

theorem loopSpec_cons {b : Nat} {e : Bool} {g s2 : List Char}
    (hg : GoodGroup g) (h : LoopSpec (b + 2) e s2) :
    LoopSpec b e (g ++ ':' :: s2) := by
  rcases h with ⟨gs, hgood, hne, hs, h0, h1⟩ |
    ⟨gs, q, hgood, hne, hq, hs, h0, h1⟩ |
    ⟨he, gs, restS, hgood, hne, hs, hpost⟩ | ⟨q, hq, hs, h0, h1⟩
  · refine Or.inl ⟨g :: gs, ?_, by simp, ?_, ?_, ?_⟩
    · intro x hx
      rcases List.mem_cons.1 hx with hh | hh
      · exact hh ▸ hg
      · exact hgood x hh
    · rw [joinColon_cons hne, hs]
    · intro hh
      have := h0 hh
      simp only [List.length_cons]
      omega
    · intro hh
      have := h1 hh
      simp only [List.length_cons]
      omega
  · refine Or.inr (Or.inl ⟨g :: gs, q, ?_, by simp, hq, ?_, ?_, ?_⟩)
    · intro x hx
      rcases List.mem_cons.1 hx with hh | hh
      · exact hh ▸ hg
      · exact hgood x hh
    · rw [joinColon_cons hne, hs]
      simp
    · intro hh
      have := h0 hh
      simp only [List.length_cons]
      omega
    · intro hh
      have := h1 hh
      simp only [List.length_cons]
      omega
  · refine Or.inr (Or.inr (Or.inl ⟨he, g :: gs, restS, ?_, by simp, ?_, ?_⟩))
    · intro x hx
      rcases List.mem_cons.1 hx with hh | hh
      · exact hh ▸ hg
      · exact hgood x hh
    · rw [joinColon_cons hne, hs]
      simp
    · have harith : b + 2 * (g :: gs).length = b + 2 + 2 * gs.length := by
        simp only [List.length_cons]
        omega
      rw [harith]
      exact hpost
  · refine Or.inr (Or.inl ⟨[g], q, ?_, by simp, hq, ?_, ?_, ?_⟩)
    · intro x hx
      have hxg : x = g := by simpa using hx
      exact hxg ▸ hg
    · rw [hs]
      rfl
    · intro hh
      have := h0 hh
      simp only [List.length_cons, List.length_nil]
      omega
    · intro hh
      have := h1 hh
      simp only [List.length_cons, List.length_nil]
      omega

theorem loop_sound_aux : ∀ (k : Nat) (s : List Char), s.length ≤ k →
    ∀ (bytes : List Nat) (ell : Option Nat) (out : List Nat),
    2 ∣ bytes.length → parseIPv6Loop bytes ell s = some out →
    LoopSpec bytes.length ell.isSome s := by
  intro k
  induction k with
  | zero =>
    intro s hs bytes ell out hdvd h
    have hs0 : s = [] := List.eq_nil_of_length_eq_zero (by omega)
    subst hs0
    unfold parseIPv6Loop at h
    simp [xtoi] at h
  | succ k ih =>
    intro s hs bytes ell out hdvd h
    unfold parseIPv6Loop at h
    by_cases hguard : 16 ≤ bytes.length
    · rw [if_pos hguard] at h
      cases h
    · rw [if_neg hguard] at h
      split at h
      · cases h
      · next n c hx =>
        by_cases hcap : 65535 < n
        · rw [if_pos hcap] at h
          cases h
        · rw [if_neg hcap] at h
          split at h
          · next hc =>
            obtain ⟨ds, hsplit, hdne, hdig, hval, -⟩ := xtoi_inv hx
            rw [List.append_nil] at hsplit
            have hgds : GoodGroup ds := ⟨hdne, hdig, by omega⟩
            subst hsplit
            rcases finishIPv6_inv h with ⟨hlt, e, rfl⟩ | ⟨hge, rfl⟩
            · refine Or.inl ⟨[s], ?_, by simp, rfl,
                fun hh => absurd hh (by simp), fun _ => ?_⟩
              · intro x hx2
                have hxds : x = s := by simpa using hx2
                exact hxds ▸ hgds
              · simp only [List.length_append, List.length_cons,
                  List.length_nil] at hlt
                simp only [List.length_cons, List.length_nil]
                omega
            · refine Or.inl ⟨[s], ?_, by simp, rfl, fun _ => ?_,
                fun hh => absurd hh (by simp)⟩
              · intro x hx2
                have hxds : x = s := by simpa using hx2
                exact hxds ▸ hgds
              · simp only [List.length_append, List.length_cons,
                  List.length_nil] at hge
                simp only [List.length_cons, List.length_nil]
                omega
          · next ch rest hc =>
            by_cases hdot : ch = '.'
            · rw [if_pos hdot] at h
              by_cases h12 : ell = none ∧ bytes.length ≠ 12
              · rw [if_pos h12] at h
                cases h
              · rw [if_neg h12] at h
                by_cases hroom : 16 < bytes.length + 4
                · rw [if_pos hroom] at h
                  cases h
                · rw [if_neg hroom] at h
                  split at h
                  · cases h
                  · next ip4 hp4 =>
                    have hq : ValidIPv4S s := validS_of_parseIPv4 hp4
                    refine Or.inr (Or.inr (Or.inr ⟨s, hq, rfl, ?_, ?_⟩))
                    · intro he
                      have helln : ell = none := by
                        cases ell with
                        | none => rfl
                        | some p => simp at he
                      by_contra hb
                      exact h12 ⟨helln, hb⟩
                    · intro he
                      rcases finishIPv6_inv h with ⟨hlt, e, hee⟩ | ⟨-, hee⟩
                      · simp only [List.length_append, List.length_cons,
                          List.length_nil] at hlt
                        omega
                      · rw [hee] at he
                        simp at he
            · rw [if_neg hdot] at h
              by_cases hcol : ch = ':'
              · rw [if_pos hcol] at h
                subst hcol
                split at h
                · cases h
                · next cc c2 hcopy hr =>
                  by_cases hcc : cc = ':'
                  · rw [if_pos hcc] at h
                    subst hcc
                    by_cases hell : ell ≠ none
                    · rw [if_pos hell] at h
                      cases h
                    · rw [if_neg hell] at h
                      have helln : ell = none := not_not.mp hell
                      subst helln
                      obtain ⟨ds, hsplit, hdne, hdig, hval, -⟩ := xtoi_inv hx
                      have hgds : GoodGroup ds := ⟨hdne, hdig, by omega⟩
                      have hclen := xtoi_length_lt hx
                      by_cases hr2 : c2 = []
                      · rw [if_pos hr2] at h
                        subst hr2
                        subst hsplit
                        rcases finishIPv6_inv h with ⟨hlt, e, -⟩ | ⟨-, hee⟩
                        · refine Or.inr (Or.inr (Or.inl ⟨rfl, [ds], [],
                            ?_, by simp, rfl, Or.inl ⟨rfl, ?_⟩⟩))
                          · intro x hx2
                            have hxds : x = ds := by simpa using hx2
                            exact hxds ▸ hgds
                          · simp only [List.length_append, List.length_cons,
                              List.length_nil] at hlt
                            simp only [List.length_cons, List.length_nil]
                            omega
                        · cases hee
                      · rw [if_neg hr2] at h
                        subst hsplit
                        simp only [List.length_append, List.length_cons,
                          List.length_nil] at hclen hs
                        have hrec := ih c2 (by omega)
                          (bytes ++ [n / 256 % 256, n % 256])
                          (some (bytes.length + 2)) out
                          (by simp; omega) h
                        simp only [List.length_append, List.length_cons,
                          List.length_nil, Option.isSome_some] at hrec
                        refine Or.inr (Or.inr (Or.inl ⟨rfl, [ds], c2,
                          ?_, by simp, rfl, ?_⟩))
                        · intro x hx2
                          have hxds : x = ds := by simpa using hx2
                          exact hxds ▸ hgds
                        · have harith :
                              bytes.length + 2 * ([ds] : List (List Char)).length =
                              bytes.length + 2 := by
                            simp
                          rw [harith]
                          exact postSpec_of_loopSpec hrec
                  · rw [if_neg hcc] at h
                    obtain ⟨ds, hsplit, hdne, hdig, hval, -⟩ := xtoi_inv hx
                    have hgds : GoodGroup ds := ⟨hdne, hdig, by omega⟩
                    have hclen := xtoi_length_lt hx
                    subst hsplit
                    simp only [List.length_append, List.length_cons,
                      List.length_nil] at hclen hs
                    have hrec := ih (cc :: c2) (by simp; omega)
                      (bytes ++ [n / 256 % 256, n % 256]) ell out
                      (by simp; omega) h
                    simp only [List.length_append, List.length_cons,
                      List.length_nil] at hrec
                    exact loopSpec_cons hgds hrec
              · rw [if_neg hcol] at h
                cases h

theorem loop_sound {s : List Char} {bytes : List Nat} {ell : Option Nat}
    {out : List Nat} (hdvd : 2 ∣ bytes.length)
    (h : parseIPv6Loop bytes ell s = some out) :
    LoopSpec bytes.length ell.isSome s :=
  loop_sound_aux s.length s le_rfl bytes ell out hdvd h

/-! ### From the loop to `parseIPv6` and `parseCIDR` -/

theorem v6flat_head {u : Nat} {e : Bool} {s : List Char} (h : V6Flat u e s) :
    ∃ c r, s = c :: r ∧ c ≠ ':' := by
  rcases h with ⟨gs, hgood, hne, hs, -, -⟩ | ⟨gs, q, hgood, hne, -, hs, -, -⟩ |
    ⟨-, gs, restS, hgood, hne, hs, -⟩ | ⟨q, hq, hs, -, -⟩
  · obtain ⟨c, r, hj, hc⟩ := joinColon_head_of_good hne hgood
    exact ⟨c, r, hs.trans hj, isHexDigit_ne_colon hc⟩
  · obtain ⟨c, r, hj, hc⟩ := joinColon_head_of_good hne hgood
    refine ⟨c, r ++ ':' :: q, ?_, isHexDigit_ne_colon hc⟩
    rw [hs, hj]
    rfl
  · obtain ⟨c, r, hj, hc⟩ := joinColon_head_of_good hne hgood
    refine ⟨c, r ++ ':' :: ':' :: restS, ?_, isHexDigit_ne_colon hc⟩
    rw [hs, hj]
    rfl
  · obtain ⟨c, r, hcr, hd⟩ := validIPv4S_head hq
    exact ⟨c, r, hs.trans hcr, isHexDigit_ne_colon (isHexDigit_of_digit hd)⟩

theorem parseIPv6_cc_nil : parseIPv6 [':', ':'] = some (List.replicate 16 0) := by
  simp [parseIPv6]

theorem parseIPv6_cc {rest : List Char} (h : rest ≠ []) :
    parseIPv6 (':' :: ':' :: rest) = parseIPv6Loop [] (some 0) rest := by
  simp [parseIPv6, h]

theorem parseIPv6_eq_loop {s : List Char}
    (h : ∀ rest, s ≠ ':' :: ':' :: rest) :
    parseIPv6 s = parseIPv6Loop [] none s := by
  match s with
  | [] => rfl
  | [c] => rfl
  | c1 :: c2 :: rest =>
    have hcc : ¬(c1 = ':' ∧ c2 = ':') := by
      rintro ⟨rfl, rfl⟩
      exact h rest rfl
    simp [parseIPv6, hcc]

theorem parseIPv6_some_iff (s : List Char) :
    (∃ out, parseIPv6 s = some out) ↔ ValidIPv6S s := by
  by_cases hcc : ∃ rest, s = ':' :: ':' :: rest
  · obtain ⟨rest, rfl⟩ := hcc
    by_cases hre : rest = []
    · subst hre
      constructor
      · intro _
        exact Or.inl ⟨[], rfl, Or.inl ⟨rfl, by omega⟩⟩
      · intro _
        exact ⟨List.replicate 16 0, parseIPv6_cc_nil⟩
    · constructor
      · rintro ⟨out, h⟩
        rw [parseIPv6_cc hre] at h
        have hspec := loop_sound (by simp) h
        simp only [List.length_nil, Option.isSome_some] at hspec
        exact Or.inl ⟨rest, rfl,
          (postSpec_iff_postForm (by norm_num) rest).1
            (postSpec_of_loopSpec hspec)⟩
      · intro hv
        have hpf : PostForm 0 rest := by
          rcases hv with ⟨rest', heq, hp⟩ | hflat
          · simp only [List.cons.injEq, true_and] at heq
            rw [heq]
            exact hp
          · obtain ⟨c, r, hcr, hne⟩ := v6flat_head hflat
            injection hcr with h1 h2
            exact absurd h1.symm hne
        obtain ⟨out, hout⟩ := loop_complete_true [] 0 rest
          (by simpa using (loopSpec_of_postSpec hre
            ((postSpec_iff_postForm (by norm_num) rest).2 hpf)))
        exact ⟨out, by rw [parseIPv6_cc hre]; exact hout⟩
  · push_neg at hcc
    constructor
    · rintro ⟨out, h⟩
      rw [parseIPv6_eq_loop hcc] at h
      have hspec := loop_sound (by simp) h
      simp only [List.length_nil, Option.isSome_none] at hspec
      exact Or.inr ((loopSpec_iff_v6flat (by norm_num) false s).1 hspec)
    · intro hv
      have hflat : V6Flat 0 false s := by
        rcases hv with ⟨rest', heq, -⟩ | hf
        · exact absurd heq (hcc rest')
        · exact hf
      obtain ⟨out, hout⟩ := loop_complete_false [] s
        (by simpa using (loopSpec_iff_v6flat (by norm_num) false s).2 hflat)
      exact ⟨out, by rw [parseIPv6_eq_loop hcc]; exact hout⟩

/-! ### The characters of a valid IPv6 literal -/

theorem joinColon_chars : ∀ (gs : List (List Char)),
    (∀ g ∈ gs, GoodGroup g) → ∀ c ∈ joinColon gs, IsHexDigit c ∨ c = ':'
  | [] => by
    intro _ c hc
    simp [joinColon] at hc
  | [g] => by
    intro hgood c hc
    exact Or.inl ((hgood g (by simp)).2.1 c hc)
  | g :: g2 :: gs => by
    intro hgood c hc
    rw [joinColon_cons (by simp)] at hc
    simp only [List.mem_append, List.mem_cons] at hc
    rcases hc with hc | hc | hc
    · exact Or.inl ((hgood g (by simp)).2.1 c hc)
    · exact Or.inr hc
    · exact joinColon_chars (g2 :: gs)
        (fun x hx => hgood x (List.mem_cons_of_mem g hx)) c hc

theorem postForm_chars {w : Nat} {r : List Char} (h : PostForm w r) :
    ∀ c ∈ r, IsHexDigit c ∨ c = ':' ∨ c = '.' := by
  rcases h with ⟨rfl, -⟩ | ⟨post, hgood, -, rfl, -⟩ |
    ⟨post, q, hgood, -, hq, rfl, -⟩ | ⟨q, hq, rfl, -⟩
  · intro c hc
    simp at hc
  · intro c hc
    rcases joinColon_chars post hgood c hc with hh | hh
    · exact Or.inl hh
    · exact Or.inr (Or.inl hh)
  · intro c hc
    simp only [List.mem_append, List.mem_cons] at hc
    rcases hc with hc | hc | hc
    · rcases joinColon_chars post hgood c hc with hh | hh
      · exact Or.inl hh
      · exact Or.inr (Or.inl hh)
    · exact Or.inr (Or.inl hc)
    · rcases validIPv4S_chars hq c hc with hh | hh
      · exact Or.inl (isHexDigit_of_digit hh)
      · exact Or.inr (Or.inr hh)
  · intro c hc
    rcases validIPv4S_chars hq c hc with hh | hh
    · exact Or.inl (isHexDigit_of_digit hh)
    · exact Or.inr (Or.inr hh)

theorem v6flat_chars {u : Nat} {e : Bool} {s : List Char} (h : V6Flat u e s) :
    ∀ c ∈ s, IsHexDigit c ∨ c = ':' ∨ c = '.' := by
  rcases h with ⟨gs, hgood, -, rfl, -⟩ | ⟨gs, q, hgood, -, hq, rfl, -⟩ |
    ⟨-, gs, restS, hgood, -, rfl, hpost⟩ | ⟨q, hq, rfl, -⟩
  · intro c hc
    rcases joinColon_chars gs hgood c hc with hh | hh
    · exact Or.inl hh
    · exact Or.inr (Or.inl hh)
  · intro c hc
    simp only [List.mem_append, List.mem_cons] at hc
    rcases hc with hc | hc | hc
    · rcases joinColon_chars gs hgood c hc with hh | hh
      · exact Or.inl hh
      · exact Or.inr (Or.inl hh)
    · exact Or.inr (Or.inl hc)
    · rcases validIPv4S_chars hq c hc with hh | hh
      · exact Or.inl (isHexDigit_of_digit hh)
      · exact Or.inr (Or.inr hh)
  · intro c hc
    simp only [List.mem_append, List.mem_cons] at hc
    rcases hc with hc | hc | hc | hc
    · rcases joinColon_chars gs hgood c hc with hh | hh
      · exact Or.inl hh
      · exact Or.inr (Or.inl hh)
    · exact Or.inr (Or.inl hc)
    · exact Or.inr (Or.inl hc)
    · exact postForm_chars hpost c hc
  · intro c hc
    rcases validIPv4S_chars hq c hc with hh | hh
    · exact Or.inl (isHexDigit_of_digit hh)
    · exact Or.inr (Or.inr hh)

theorem validIPv6S_chars {s : List Char} (h : ValidIPv6S s) :
    ∀ c ∈ s, IsHexDigit c ∨ c = ':' ∨ c = '.' := by
  rcases h with ⟨rest, rfl, hp⟩ | hf
  · intro c hc
    simp only [List.mem_cons] at hc
    rcases hc with rfl | rfl | hc
    · exact Or.inr (Or.inl rfl)
    · exact Or.inr (Or.inl rfl)
    · exact postForm_chars hp c hc
  · exact v6flat_chars hf

theorem validIPv6S_no_slash {s : List Char} (h : ValidIPv6S s) : '/' ∉ s := by
  intro hm
  rcases validIPv6S_chars h '/' hm with hh | hh | hh
  · exact absurd hh (by unfold IsHexDigit; decide)
  · exact absurd hh (by decide)
  · exact absurd hh (by decide)

theorem validIPv6S_colon {s : List Char} (h : ValidIPv6S s) : ':' ∈ s := by
  rcases h with ⟨rest, rfl, -⟩ | hf
  · simp
  · rcases hf with ⟨gs, hgood, hne, rfl, h0, -⟩ |
      ⟨gs, q, -, hne, -, rfl, -, -⟩ | ⟨-, gs, restS, -, hne, rfl, -⟩ |
      ⟨q, -, -, h0, -⟩
    · have h8 := h0 rfl
      cases gs with
      | nil => simp at h8
      | cons g1 gs1 =>
        cases gs1 with
        | nil => simp at h8
        | cons g2 gs2 =>
          rw [joinColon_cons (by simp)]
          simp
    · simp
    · simp
    · exact absurd (h0 rfl) (by omega)

theorem parseIPv4_none_of_v6 {s : List Char} (h : ValidIPv6S s) :
    parseIPv4 s = none := by
  match hp : parseIPv4 s with
  | none => rfl
  | some ip =>
    have hv4 := validS_of_parseIPv4 hp
    have hcolon := validIPv6S_colon h
    rcases validIPv4S_chars hv4 ':' hcolon with hh | hh
    · exact absurd hh (by decide)
    · exact absurd hh (by decide)

/-! ### The strings `parseCIDR` accepts -/

theorem valid_of_parseCIDR {s : String} {r : IPNetM}
    (h : parseCIDR s = some r) : ValidCIDRString s := by
  unfold parseCIDR at h
  simp only [Option.bind_eq_bind] at h
  match hss : splitSlash s.data with
  | none =>
    rw [hss] at h
    simp at h
  | some (addr, mask) =>
    rw [hss] at h
    simp only [Option.some_bind] at h
    have hsd := (splitSlash_eq hss).1
    match hv4 : parseIPv4 addr with
    | some ip =>
      rw [hv4] at h
      simp only [Option.some_bind] at h
      match hd : dtoi mask with
      | none =>
        rw [hd] at h
        simp at h
      | some (n, restm) =>
        rw [hd] at h
        simp only [Option.some_bind] at h
        by_cases hok : restm = [] ∧ n ≤ 8 * 4
        · obtain ⟨hrnil, hn⟩ := hok
          subst hrnil
          obtain ⟨ds, hmask, hdne, hdig2, hval2, -⟩ := dtoi_inv hd
          rw [List.append_nil] at hmask
          refine ⟨addr, mask, n, hsd, ?_, Or.inl ⟨validS_of_parseIPv4 hv4,
            by omega⟩⟩
          rw [hmask]
          exact ⟨hdne, hdig2, hval2⟩
        · rw [if_neg hok] at h
          cases h
    | none =>
      rw [hv4] at h
      match hv6 : parseIPv6 addr with
      | none =>
        rw [hv6] at h
        simp at h
      | some bs =>
        rw [hv6] at h
        simp only [Option.some_bind] at h
        match hd : dtoi mask with
        | none =>
          rw [hd] at h
          simp at h
        | some (n, restm) =>
          rw [hd] at h
          simp only [Option.some_bind] at h
          by_cases hok : restm = [] ∧ n ≤ 8 * 16
          · obtain ⟨hrnil, hn⟩ := hok
            subst hrnil
            obtain ⟨ds, hmask, hdne, hdig2, hval2, -⟩ := dtoi_inv hd
            rw [List.append_nil] at hmask
            refine ⟨addr, mask, n, hsd, ?_,
              Or.inr ⟨(parseIPv6_some_iff addr).1 ⟨bs, hv6⟩, by omega⟩⟩
            rw [hmask]
            exact ⟨hdne, hdig2, hval2⟩
          · rw [if_neg hok] at h
            cases h

theorem parseCIDR_of_valid {s : String} (h : ValidCIDRString s) :
    ∃ r, parseCIDR s = some r := by
  obtain ⟨addr, mask, vm, hsd, hmask, hcase⟩ := h
  have hnoslash : '/' ∉ addr := by
    rcases hcase with ⟨h4, -⟩ | ⟨h6, -⟩
    · intro hm
      rcases validIPv4S_chars h4 '/' hm with hh | hh
      · exact absurd hh (by decide)
      · exact absurd hh (by decide)
    · exact validIPv6S_no_slash h6
  obtain ⟨hmne, hmdig, hmval⟩ := hmask
  have hvmle : vm ≤ 128 := by
    rcases hcase with ⟨-, hb⟩ | ⟨-, hb⟩ <;> omega
  have hdm : dtoi mask = some (vm, []) := by
    have h2 := dtoi_reads mask [] hmdig hmne (by omega) noDigitHead_nil
    rw [List.append_nil, hmval] at h2
    exact h2
  unfold parseCIDR
  rw [hsd, splitSlash_append addr mask hnoslash]
  simp only [Option.bind_eq_bind, Option.some_bind]
  rcases hcase with ⟨h4, h32⟩ | ⟨h6, h128⟩
  · obtain ⟨ip, hip⟩ := parseIPv4_of_validS h4
    rw [hip]
    simp only [Option.some_bind]
    rw [hdm]
    simp only [Option.some_bind]
    rw [if_pos (by exact ⟨by simp, by omega⟩)]
    exact ⟨_, rfl⟩
  · rw [parseIPv4_none_of_v6 h6]
    obtain ⟨bs, hbs⟩ := (parseIPv6_some_iff addr).2 h6
    rw [hbs]
    simp only [Option.some_bind]
    rw [hdm]
    simp only [Option.some_bind]
    rw [if_pos (by exact ⟨by simp, by omega⟩)]
    exact ⟨_, rfl⟩

/-! ## Remaining small helpers -/

theorem removeCommon_self : ∀ A : List CIDR, removeCommon A A = ([], [])
  | [] => by simp [removeCommon]
  | x :: a => by
    rw [removeCommon, if_pos rfl]
    exact removeCommon_self a

theorem addTrace_isAdd : ∀ (cs : List CIDR), ∀ o ∈ addTrace cs, o.isAddOp = true
  | [] => by simp [addTrace]
  | c :: rest => by
    intro o ho
    rcases List.mem_cons.1 ho with h | h
    · subst h; rfl
    · rcases List.mem_cons.1 h with h | h
      · subst h; rfl
      · exact addTrace_isAdd rest o h

theorem take_dropLast_take {α : Type} (l : List α) (k : Nat) (hk : k ≤ l.length) :
    (l.take k).dropLast = l.take (k - 1) := by
  rw [List.dropLast_eq_take, List.length_take, List.take_take]
  congr 1
  omega

/-! ## Worked-example inputs used by the witnesses -/

/-- 10.0.0.0/24. -/
def exA : CIDR := ⟨167772160, 24⟩

/-- 10.0.1.0/24. -/
def exB : CIDR := ⟨167772416, 24⟩

/-- 10.0.2.0/24. -/
def exC : CIDR := ⟨167772672, 24⟩

/-- A concrete tracker. -/
def exTracker : AWSVPCTracker := ⟨0, "i-0123", "rtb-0456", 7⟩

/-- A backend on which every operation succeeds. -/
def okBackend : Backend := fun _ => none

/-- A backend failing every cloud-table add with error text "boom". -/
def failCloudAdd : Backend := fun o =>
  match o with
  | Op.addCloud _ => some "boom"
  | _ => none

/-! ## The claims -/

/-- C1: for sorted, non-overlapping valid range sets, if both backend
tables (modelled as sets of range strings, add inserting and remove
deleting) start holding exactly the range strings of `prev`, then after a
reconciliation that returns success each table holds exactly the range
strings of `curr`. -/
theorem c1_backend_state_exact (t : AWSVPCTracker) (B : Backend)
    (prev curr : List CIDR) (t' : AWSVPCTracker) (tr : List Op)
    (hp : SortedRanges prev) (hc : SortedRanges curr)
    (hvp : ∀ x ∈ prev, x.Valid) (hvc : ∀ x ∈ curr, x.Valid)
    (h : handleUpdate t B prev curr = (t', tr, none)) :
    applyTrace (strsOf prev, strsOf prev) tr = (strsOf curr, strsOf curr) := by
  obtain ⟨htr, -⟩ := handleUpdate_success h
  have hrc := removeCommon_eq_diffL prev curr
    (sortedRanges_endSorted hp) (sortedRanges_endSorted hc)
  rw [htr, canonTrace, hrc]
  dsimp only
  rw [applyTrace_append, applyTrace_addTrace, applyTrace_removeTrace]
  dsimp only
  rw [reconcile_sets hvp hvc]

/-- C1 at the spec's worked example: prev = {10.0.0.0/24, 10.0.2.0/24},
curr = {10.0.1.0/24, 10.0.2.0/24}, all backend calls succeeding. -/
theorem c1_backend_state_exact_witness :
    applyTrace (strsOf [exA, exC], strsOf [exA, exC])
      [Op.addCloud "10.0.1.0/24", Op.addHost "10.0.1.0/24",
        Op.removeCloud "10.0.0.0/24", Op.removeHost "10.0.0.0/24"] =
      (strsOf [exB, exC], strsOf [exB, exC]) :=
  c1_backend_state_exact exTracker okBackend [exA, exC] [exB, exC] exTracker
    [Op.addCloud "10.0.1.0/24", Op.addHost "10.0.1.0/24",
      Op.removeCloud "10.0.0.0/24", Op.removeHost "10.0.0.0/24"]
    (by decide) (by decide) (by decide) (by decide)
    (by
      have h : removeCommon [exA, exC] [exB, exC] = ([exA], [exB]) := by
        norm_num [removeCommon, exA, exB, exC, CIDR.End, CIDR.size]
      simp only [handleUpdate, h]
      decide)

/-- C2: for sorted, non-overlapping range sets `A` and `B`, the two outputs
of `removeCommon` are disjoint from each other and from `A ∩ B`, and each
output together with `A ∩ B` reassembles its input set. -/
theorem c2_removeCommon_partition (A B : List CIDR)
    (hA : SortedRanges A) (hB : SortedRanges B) :
    Disjoint (removeCommon A B).1.toFinset (removeCommon A B).2.toFinset ∧
    Disjoint (removeCommon A B).1.toFinset (A.toFinset ∩ B.toFinset) ∧
    Disjoint (removeCommon A B).2.toFinset (A.toFinset ∩ B.toFinset) ∧
    (removeCommon A B).1.toFinset ∪ (A.toFinset ∩ B.toFinset) = A.toFinset ∧
    (removeCommon A B).2.toFinset ∪ (A.toFinset ∩ B.toFinset) = B.toFinset := by
  have h := removeCommon_eq_diffL A B
    (sortedRanges_endSorted hA) (sortedRanges_endSorted hB)
  rw [h]
  dsimp only
  refine ⟨?_, ?_, ?_, ?_, ?_⟩
  · rw [Finset.disjoint_left]
    intro x hx hx2
    rw [List.mem_toFinset, mem_diffL] at hx hx2
    tauto
  · rw [Finset.disjoint_left]
    intro x hx hx2
    rw [List.mem_toFinset, mem_diffL] at hx
    rw [Finset.mem_inter, List.mem_toFinset, List.mem_toFinset] at hx2
    tauto
  · rw [Finset.disjoint_left]
    intro x hx hx2
    rw [List.mem_toFinset, mem_diffL] at hx
    rw [Finset.mem_inter, List.mem_toFinset, List.mem_toFinset] at hx2
    tauto
  · ext x
    simp only [Finset.mem_union, Finset.mem_inter, List.mem_toFinset, mem_diffL]
    tauto
  · ext x
    simp only [Finset.mem_union, Finset.mem_inter, List.mem_toFinset, mem_diffL]
    tauto

/-- C2 at the spec's worked example. -/
theorem c2_removeCommon_partition_witness :
    Disjoint (removeCommon [exA, exC] [exB, exC]).1.toFinset
      (removeCommon [exA, exC] [exB, exC]).2.toFinset ∧
    Disjoint (removeCommon [exA, exC] [exB, exC]).1.toFinset
      ([exA, exC].toFinset ∩ [exB, exC].toFinset) ∧
    Disjoint (removeCommon [exA, exC] [exB, exC]).2.toFinset
      ([exA, exC].toFinset ∩ [exB, exC].toFinset) ∧
    (removeCommon [exA, exC] [exB, exC]).1.toFinset ∪
      ([exA, exC].toFinset ∩ [exB, exC].toFinset) = [exA, exC].toFinset ∧
    (removeCommon [exA, exC] [exB, exC]).2.toFinset ∪
      ([exA, exC].toFinset ∩ [exB, exC].toFinset) = [exB, exC].toFinset :=
  c2_removeCommon_partition [exA, exC] [exB, exC] (by decide) (by decide)

/-- C3: the issued operation sequence is always a prefix of the canonical
sequence (additions in `onlyCurr` order, cloud before host per range, then
removals in `onlyPrev` order); the reconciliation returns success exactly
when the whole canonical sequence was issued with every call succeeding;
and a failure while the trace lies within the add phase (it equals the
first `k` canonical add operations) means the operations before the failing
one were issued and succeeded and no remove-phase operation was issued. -/
theorem c3_trace_canonical (t : AWSVPCTracker) (B : Backend)
    (p c : List CIDR) :
    (∃ k, (handleUpdate t B p c).2.1 = (canonTrace p c).take k) ∧
    ((handleUpdate t B p c).2.2 = none ↔
      ((handleUpdate t B p c).2.1 = canonTrace p c ∧
        ∀ o ∈ (handleUpdate t B p c).2.1, B o = none)) ∧
    (∀ k e, k ≤ (addTrace (removeCommon p c).2).length →
      (handleUpdate t B p c).2.1 = (addTrace (removeCommon p c).2).take k →
      (handleUpdate t B p c).2.2 = some e →
      (∀ o ∈ (handleUpdate t B p c).2.1, o.isAddOp = true) ∧
      (handleUpdate t B p c).2.1.dropLast =
        (addTrace (removeCommon p c).2).take (k - 1) ∧
      (∀ o ∈ (handleUpdate t B p c).2.1.dropLast, B o = none)) := by
  obtain ⟨k0, hk0, htake0⟩ := handleUpdate_take t B p c
  refine ⟨⟨k0, htake0⟩, ⟨?_, ?_⟩, ?_⟩
  · intro hnone
    have heq : handleUpdate t B p c =
        ((handleUpdate t B p c).1, (handleUpdate t B p c).2.1, none) := by
      rw [← hnone]
    exact handleUpdate_success heq
  · rintro ⟨htr, hall⟩
    match hres : (handleUpdate t B p c).2.2 with
    | none => rfl
    | some e =>
      have heq : handleUpdate t B p c =
          ((handleUpdate t B p c).1, (handleUpdate t B p c).2.1, some e) := by
        rw [← hres]
      obtain ⟨-, hor, -⟩ := handleUpdate_fail heq
      rcases hor with ⟨o, ho, hBo⟩ | hlen
      · exact absurd (hall o ho) hBo
      · rw [htr] at hlen
        exact absurd hlen (lt_irrefl _)
  · intro k e hk htake hres
    have heq : handleUpdate t B p c =
        ((handleUpdate t B p c).1, (handleUpdate t B p c).2.1, some e) := by
      rw [← hres]
    obtain ⟨-, -, hcase⟩ := handleUpdate_fail heq
    rcases hcase with hadd | ⟨rops, hne, htr⟩
    · obtain ⟨-, hdrop, -, -⟩ := addRoutes_fail t B _ _ _ _ hadd
      refine ⟨?_, ?_, hdrop⟩
      · intro o ho
        rw [htake] at ho
        exact addTrace_isAdd _ o (List.take_subset _ _ ho)
      · rw [htake]
        exact take_dropLast_take _ k hk
    · exfalso
      have h1 : (handleUpdate t B p c).2.1.length =
          (addTrace (removeCommon p c).2).length + rops.length := by
        rw [htr, List.length_append]
      have h2 : (handleUpdate t B p c).2.1.length =
          min k (addTrace (removeCommon p c).2).length := by
        rw [htake, List.length_take]
      have h3 : 0 < rops.length := List.length_pos.2 hne
      omega

/-- C4 as stated is refuted: the error wraps operation name and underlying
cause only.  Here a cloud-add failure with cause "boom" on the only added
range 10.0.0.0/24 yields "createVPCRoutes failed: boom", which does not
contain the range string. -/
theorem c4_error_counterexample :
    handleUpdate exTracker failCloudAdd [] [exA] =
      (exTracker, [Op.addCloud "10.0.0.0/24"],
        some "createVPCRoutes failed: boom") ∧
    strContains "createVPCRoutes failed: boom" "10.0.0.0/24" = false := by
  constructor
  · have h : removeCommon ([] : List CIDR) [exA] = ([], [exA]) := by
      simp [removeCommon]
    simp only [handleUpdate, h]
    decide
  · decide

/-- C4 amended: on any failure, `HandleUpdate` returns an error naming the
failed backend call (which identifies table and operation) and carrying the
underlying error text verbatim; the failing operation is the last one
issued.  The error does not include the range string itself. -/
theorem c4_error_shape (t : AWSVPCTracker) (B : Backend) (p c : List CIDR)
    (t' : AWSVPCTracker) (tr : List Op) (e : String)
    (h : handleUpdate t B p c = (t', tr, some e)) :
    ∃ o, tr.getLast? = some o ∧ FailureShape B o e :=
  (handleUpdate_fail h).1

/-- C4 amended claim at a concrete failing run. -/
theorem c4_error_shape_witness :
    ∃ o, [Op.addCloud "10.0.0.0/24"].getLast? = some o ∧
      FailureShape failCloudAdd o "createVPCRoutes failed: boom" :=
  c4_error_shape exTracker failCloudAdd [] [exA] exTracker
    [Op.addCloud "10.0.0.0/24"] "createVPCRoutes failed: boom"
    (by
      have h : removeCommon ([] : List CIDR) [exA] = ([], [exA]) := by
        simp [removeCommon]
      simp only [handleUpdate, h]
      decide)

/-- C5: diffing a valid sorted range set against itself yields two empty
outputs, and reconciling element-wise equal inputs issues no backend
operation and succeeds. -/
theorem c5_identity_noop (t : AWSVPCTracker) (B : Backend) (A : List CIDR)
    (hA : SortedRanges A) (hv : ∀ x ∈ A, x.Valid) :
    removeCommon A A = ([], []) ∧ handleUpdate t B A A = (t, [], none) := by
  have hrc : removeCommon A A = ([], []) := removeCommon_self A
  refine ⟨hrc, ?_⟩
  simp [handleUpdate, hrc, addRoutes, removeRoutes]

/-- C5 at a concrete two-range set. -/
theorem c5_identity_noop_witness :
    removeCommon [exA, exB] [exA, exB] = ([], []) ∧
    handleUpdate exTracker okBackend [exA, exB] [exA, exB] =
      (exTracker, [], none) :=
  c5_identity_noop exTracker okBackend [exA, exB] (by decide) (by decide)

/-- C6: an empty previous set leaves all of `curr` as additions with no
removals; an empty current set leaves all of `prev` as removals with no
additions. -/
theorem c6_empty_sides (A B : List CIDR) :
    removeCommon [] B = ([], B) ∧ removeCommon A [] = (A, []) := by
  constructor
  · simp [removeCommon]
  · match A with
    | [] => simp [removeCommon]
    | x :: a => simp [removeCommon]

/-- C7: parsing a canonical range string with `parseCIDR` and
re-serializing the parsed network yields the identical string. -/
theorem c7_parse_round_trip (s : String)
    (h : ∃ c : CIDR, c.Valid ∧ s = c.toStr) :
    ∃ m, parseCIDR s = some m ∧ m.toStr = s := by
  obtain ⟨c, hv, hs⟩ := h
  subst hs
  exact ⟨⟨c.addr, c.prefixLen⟩, parseCIDR_toStr hv, rfl⟩

/-- C7 at "10.0.0.0/24". -/
theorem c7_parse_round_trip_witness :
    ∃ m, parseCIDR "10.0.0.0/24" = some m ∧ m.toStr = "10.0.0.0/24" :=
  c7_parse_round_trip "10.0.0.0/24" ⟨exA, by decide, by decide⟩

/-- C8: `parseCIDR` (a pure function touching no backend) returns an error
exactly on the strings that are not syntactically valid network/prefix
pairs, and on valid input returns a parsed network and no error. -/
theorem c8_parse_error_iff (s : String) :
    parseCIDR s = none ↔ ¬ ValidCIDRString s := by
  constructor
  · intro hnone hvalid
    obtain ⟨m, hm⟩ := parseCIDR_of_valid hvalid
    rw [hnone] at hm
    cases hm
  · intro hnv
    match hp : parseCIDR s with
    | none => rfl
    | some m => exact absurd (valid_of_parseCIDR hp) hnv

/-- C9: a reconciliation never changes the tracker's fields (ec2 handle,
instance id, route table id, link index), whatever the inputs and whatever
outcomes the backends return. -/
theorem c9_tracker_unchanged (t : AWSVPCTracker) (B : Backend)
    (prevRanges currRanges : List CIDR) :
    (handleUpdate t B prevRanges currRanges).1 = t :=
  handleUpdate_tracker t B prevRanges currRanges

/-- C10: when the merge compares two unequal ranges whose end addresses are
equal, it emits the curr-side range into the second output and advances
only the curr-side pointer, leaving the prev-side range for later. -/
theorem c10_equal_end_step (x y : CIDR) (a b : List CIDR)
    (hne : x ≠ y) (hEnd : x.End = y.End) :
    removeCommon (x :: a) (y :: b) =
      ((removeCommon (x :: a) b).1, y :: (removeCommon (x :: a) b).2) := by
  rw [removeCommon, if_neg hne, if_neg (by omega : ¬x.End < y.End)]

/-- C10 at 10.0.0.0/25 (prev side) versus 10.0.0.64/26 (curr side), whose
end addresses are both 10.0.0.128. -/
theorem c10_equal_end_step_witness :
    removeCommon [(⟨0, 25⟩ : CIDR)] [(⟨64, 26⟩ : CIDR)] =
      ((removeCommon [(⟨0, 25⟩ : CIDR)] []).1,
        (⟨64, 26⟩ : CIDR) :: (removeCommon [(⟨0, 25⟩ : CIDR)] []).2) :=
  c10_equal_end_step ⟨0, 25⟩ ⟨64, 26⟩ [] [] (by decide) (by decide)

end Weave
